import Mathlib

/-!
# Verification of the Singapore Mahjong rules engine

Shallow embedding of the core of the repository:
* `src/hand-parser.ts` — hand validation and meld decomposition,
* the game engine (`game.ts`) — turn state machine, claim actions,
  kong replacement, claim-window resolution, legal-action query,
* `wall.ts` — `drawFromDeadWall`.

Tiles are compared for game purposes by their key (`tileKey`, the string
`suit_value`).  We encode the 34 non-bonus keys by their rank in the
lexicographic (string) order the source obtains from
`Array.from(counts.keys()).sort()`:

  rank  0-8  : bamboo_1 .. bamboo_9
  rank  9-17 : characters_1 .. characters_9
  rank 18-26 : dots_1 .. dots_9
  rank 27-29 : dragons_green, dragons_red, dragons_white
  rank 30-33 : winds_east, winds_north, winds_south, winds_west

(the suit names sort as bamboo < characters < dots < dragons < winds, and
values 1..9 are single digits, so numeric order agrees with string order).
The eight bonus kinds (flowers/animals) are given codes 34..41; their
relative order is never observed by the verified operations.  A tile keeps
its physical identity `id` (the source's unique id string) and the source's
`isBonus` flag.
-/

namespace SgMahjong

/-- A physical tile: unique id, kind code (rank of its `tileKey` as above),
and the `isBonus` flag carried by the source's `Tile` objects. -/
structure Tile where
  id : Nat
  kind : Nat
  isBonus : Bool
deriving DecidableEq, Repr

/-- `tileKey` from `tiles.ts`: tiles are compared by `suit_value`; in the
encoding this is exactly the `kind` code. -/
def tileKey (t : Tile) : Nat := t.kind

/-- A tile is well-formed when its kind code is consistent with its bonus
flag (non-bonus kinds are the 34 ranks, bonus kinds the codes 34..41). -/
def WFTile (t : Tile) : Prop :=
  if t.isBonus then 34 ≤ t.kind ∧ t.kind < 42 else t.kind < 34

instance (t : Tile) : Decidable (WFTile t) := by
  unfold WFTile; infer_instance

/-! ## Hand parser (`hand-parser.ts`)

The source works on a `Map<string, number>` of tile counts keyed by
`tileKey` and iterates its keys in sorted order; keys set to `0` stay
present.  We represent the counts as a length-34 list of naturals indexed
by rank; `cnt` is `counts.get(k) || 0`.  Which physical copies populate a
decomposition (the `sample.slice` calls) is elided: decompositions are
recorded at the kind level, which is what "structurally distinct
decomposition" means. -/

/-- `counts.get(k) || 0`. -/
def cnt (counts : List Nat) (k : Nat) : Nat := counts.getD k 0

/-- `tilesToCounts` from `hand-parser.ts`, as a length-34 rank-indexed
vector of counts. -/
def tilesToCounts (tiles : List Tile) : List Nat :=
  (List.range 34).map (fun r => (tiles.filter (fun t => tileKey t = r)).length)

/-- Number of keys present in the source's counts map built by
`tilesToCounts` (= number of kinds occurring in the hand, i.e. positive
entries). -/
def countsSize (counts : List Nat) : Nat :=
  (counts.filter (fun c => 0 < c)).length

/-- The 13 designated terminal/honor kinds (`ORPHAN_KEYS`), as ranks:
bamboo_1, bamboo_9, dots_1, dots_9, characters_1, characters_9, the four
winds and the three dragons. -/
def orphanKeys : List Nat := [0, 8, 18, 26, 9, 17, 30, 31, 32, 33, 27, 28, 29]

/-- One iteration of the `ORPHAN_KEYS` loop in `checkThirteenOrphans`
from `hand-parser.ts`: the state carries (still-valid, hasPair). -/
def orphanStep (counts : List Nat) (st : Bool × Bool) (k : Nat) : Bool × Bool :=
  let c := cnt counts k
  if !st.1 then st
  else if c = 0 then (false, st.2)
  else if c = 2 then (if st.2 then (false, st.2) else (st.1, true))
  else if c > 2 then (false, st.2)
  else st

/-- `checkThirteenOrphans` from `hand-parser.ts`: the early `return false`
exits of its loop are rendered by the sticky invalid flag of
`orphanStep`. -/
def checkThirteenOrphans (counts : List Nat) : Bool :=
  if countsSize counts > 13 then false
  else
    let res := orphanKeys.foldl (orphanStep counts) (true, false)
    res.1 && counts.sum == 14 && res.2

/-- `checkSevenPairs` from `hand-parser.ts`. -/
def checkSevenPairs (counts : List Nat) : Bool :=
  countsSize counts == 7 && counts.all (fun c => c == 0 || c == 2)

/-- A meld at the kind level: the source's `MeldedSet` with the concrete
tile objects elided.  `chow r` stands for the run `r, r+1, r+2`. -/
inductive MeldK where
  | pung (r : Nat)
  | kong (r : Nat)
  | chow (r : Nat)
deriving DecidableEq, Repr

/-- A `ParsedHand` at the kind level: melds plus the pair kind.  The source
pushes `pair: []` in the base case ("pair filled in by caller") and the
pair branch overwrites it; `none` is the unfilled placeholder. -/
structure ParsedHandK where
  melds : List MeldK
  pairK : Option Nat
deriving DecidableEq, Repr

/-- `findDecompositions` from `hand-parser.ts`.  The recursion consumes at
least two tiles per call, so the tile count is a termination measure; we
make it structural with a fuel counter that the top-level call
(`parseHand`) supplies as `counts.sum + 1`, which is never exhausted.
Branch order (pair, pung, kong, chow) and the first-positive-key selection
follow the source. -/
def findDecomps (fuel : Nat) (counts : List Nat) (melds : List MeldK)
    (pairChosen : Bool) : List ParsedHandK :=
  match fuel with
  | 0 => []
  | fuel + 1 =>
    if counts.sum = 0 ∧ melds.length = 4 ∧ pairChosen then
      [⟨melds, none⟩]
    else
      match (List.range 34).find? (fun k => 0 < cnt counts k) with
      | none => []
      | some k =>
        let c := cnt counts k
        let opt1 :=
          if ¬pairChosen ∧ 2 ≤ c then
            (findDecomps fuel (counts.set k (c - 2)) melds true).map
              (fun r => ⟨r.melds, some k⟩)
          else []
        let opt2 :=
          if 3 ≤ c ∧ melds.length < 4 then
            findDecomps fuel (counts.set k (c - 3)) (melds ++ [.pung k]) pairChosen
          else []
        let opt3 :=
          if c = 4 ∧ melds.length < 4 then
            findDecomps fuel (counts.set k 0) (melds ++ [.kong k]) pairChosen
          else []
        let opt4 :=
          if k < 27 ∧ k % 9 ≤ 6 ∧ 0 < cnt counts (k + 1) ∧ 0 < cnt counts (k + 2)
              ∧ melds.length < 4 then
            findDecomps fuel
              (((counts.set k (c - 1)).set (k + 1) (cnt counts (k + 1) - 1)).set
                (k + 2) (cnt counts (k + 2) - 1))
              (melds ++ [.chow k]) pairChosen
          else []
        opt1 ++ opt2 ++ opt3 ++ opt4

/-- `ParseResult` from `hand-parser.ts` (decompositions at kind level). -/
structure ParseResult where
  valid : Bool
  decompositions : List ParsedHandK
  sevenPairs : Bool
  thirteenOrphans : Bool
deriving DecidableEq, Repr

/-- `parseHand` from `hand-parser.ts`. -/
def parseHand (tiles : List Tile) : ParseResult :=
  if tiles.length ≠ 14 then
    ⟨false, [], false, false⟩
  else if tiles.any (fun t => t.isBonus) then
    ⟨false, [], false, false⟩
  else
    let counts := tilesToCounts tiles
    let sevenPairs := checkSevenPairs counts
    let thirteenOrphans := checkThirteenOrphans counts
    let decompositions := findDecomps (counts.sum + 1) counts [] false
    let valid := decompositions ≠ [] || sevenPairs || thirteenOrphans
    ⟨valid, decompositions, sevenPairs, thirteenOrphans⟩

/-! ## Game engine (`game.ts`, `game-types.ts`, `wall.ts`)

The engine is embedded as pure transition functions `GameState → … →
Except String GameState`; a thrown `Error` becomes `Except.error`.  The
source's `cloneState` makes every transition an immutable update, which
the functional embedding renders directly.  Fields and payloads not read
by any verified operation are elided with a note: per-player `seat`/`type`
(scoring and AI orchestration only), `prevailingWind`/`dealerIndex`, the
`winningHand`/`scoring` payload of a result, and the emitted `GameEvent`
lists (pure notifications never consumed by the engine). -/

/-- `MeldedSet.type` from `scoring.ts`. -/
inductive MeldType where
  | pung
  | chow
  | kong
deriving DecidableEq, Repr

/-- `MeldedSet`: a declared meld with its concrete tiles. -/
structure MeldedSet where
  type : MeldType
  tiles : List Tile
  concealed : Bool
deriving DecidableEq, Repr

/-- `PlayerState` (seat and human/ai type elided — never read by the
verified operations). -/
structure PlayerState where
  handTiles : List Tile
  openMelds : List MeldedSet
  bonusTiles : List Tile
  discards : List Tile
deriving DecidableEq, Repr

/-- `TurnPhase`. -/
inductive TurnPhase where
  | draw
  | postDraw
  | discard
  | claimWindow
  | roundOver
deriving DecidableEq, Repr

/-- `GameResult.type`. -/
inductive ResultType where
  | win
  | draw
deriving DecidableEq, Repr

/-- `GameResult` (the `winningHand`/`scoring` payload, produced for the
out-of-scope scoring collaborator, is elided). -/
structure GameResult where
  type : ResultType
  winnerIndex : Option Nat
  loserIndex : Option Nat
deriving DecidableEq, Repr

/-- `GameState` (always 4 players; `prevailingWind` and `dealerIndex`
elided — never read by the verified transitions). -/
structure GameState where
  players : List PlayerState
  wall : List Tile
  deadWall : List Tile
  currentPlayerIndex : Nat
  phase : TurnPhase
  turnNumber : Nat
  firstTurnComplete : Bool
  lastDiscard : Option Tile
  lastDiscardPlayerIndex : Option Nat
  result : Option GameResult
deriving DecidableEq, Repr

def emptyPlayer : PlayerState := ⟨[], [], [], []⟩

def dummyTile : Tile := ⟨0, 0, false⟩

/-- `state.players[i]`.  The source indexes a 4-tuple; out-of-range
indexes (a crash in the source) are never exercised by the theorems. -/
def getPlayer (s : GameState) (i : Nat) : PlayerState := s.players.getD i emptyPlayer

def setPlayer (s : GameState) (i : Nat) (p : PlayerState) : GameState :=
  { s with players := s.players.set i p }

/-- `nextPlayer` from `game.ts`. -/
def nextPlayer (i : Nat) : Nat := (i + 1) % 4

/-- `isLeftOf` from `game.ts`. -/
def isLeftOf (playerIndex discardedBy : Nat) : Bool :=
  nextPlayer discardedBy == playerIndex

/-- `countInHand` from `game.ts`. -/
def countInHand (tiles : List Tile) (key : Nat) : Nat :=
  (tiles.filter (fun t => tileKey t = key)).length

/-- `removeOneTile` from `game.ts`: remove the first tile matching a key;
returns the removed tile (if any) and the remaining hand. -/
def removeOneTile : List Tile → Nat → Option Tile × List Tile
  | [], _ => (none, [])
  | t :: rest, key =>
    if tileKey t = key then (some t, rest)
    else
      let (r, rest2) := removeOneTile rest key
      (r, t :: rest2)

/-- `findIndex` by id + `splice(idx, 1)` as used in `discardTile`,
`claimChow`, `declareKong` and `promotePungToKong`. -/
def removeTileById : List Tile → Nat → Option Tile × List Tile
  | [], _ => (none, [])
  | t :: rest, tid =>
    if t.id = tid then (some t, rest)
    else
      let (r, rest2) := removeTileById rest tid
      (r, t :: rest2)

/-- Sequentially remove each given tile by id (`declareKong`'s removal
loop); `none` if any is missing. -/
def removeAllById : List Tile → List Tile → Option (List Tile)
  | hand, [] => some hand
  | hand, kt :: rest =>
    match removeTileById hand kt.id with
    | (none, _) => none
    | (some _, hand2) => removeAllById hand2 rest

/-- `reconstructFullHand` from `game.ts`: concealed hand + optional extra
tile + open-meld tiles, kongs contributing only their first 3 tiles. -/
def reconstructFullHand (player : PlayerState) (extraTile : Option Tile) : List Tile :=
  player.handTiles ++ extraTile.toList ++
    (player.openMelds.map (fun m =>
      if m.type = .kong then m.tiles.take 3 else m.tiles)).flatten

/-- `drawFromDeadWall` from `wall.ts`: `deadWall.pop() ?? null` — the dead
wall is drawn from the back. -/
def drawFromDeadWall (deadWall : List Tile) : Option (Tile × List Tile) :=
  match deadWall.getLast? with
  | none => none
  | some t => some (t, deadWall.dropLast)

def noContest : GameResult := ⟨.draw, none, none⟩

/-- The draw-and-replace-bonus loop of `drawTile`: shift tiles off the
front of the (nonempty) wall, setting bonus tiles aside, until a non-bonus
tile is obtained or the wall empties.  Returns (remaining wall, bonus
tiles drawn, the non-bonus tile if one was obtained). -/
def drawLoop : List Tile → List Tile → List Tile × List Tile × Option Tile
  | [], acc => ([], acc, none)
  | t :: rest, acc =>
    if t.isBonus then
      if rest.isEmpty then ([], acc ++ [t], none)
      else drawLoop rest (acc ++ [t])
    else (rest, acc, some t)

/-- `drawTile` from `game.ts`.  Phase: draw → postDraw (or roundOver on
wall exhaustion, which is not an error). -/
def drawTile (state : GameState) : Except String GameState :=
  if state.phase ≠ .draw then .error "Cannot draw in phase"
  else if state.wall.isEmpty then
    .ok { state with phase := .roundOver, result := some noContest }
  else
    let pi := state.currentPlayerIndex
    let player := getPlayer state pi
    let (wall2, bonus, tileOpt) := drawLoop state.wall []
    let player := { player with bonusTiles := player.bonusTiles ++ bonus }
    match tileOpt with
    | none =>
      .ok { (setPlayer state pi player) with
            wall := wall2, phase := .roundOver, result := some noContest }
    | some t =>
      .ok { (setPlayer state pi { player with handTiles := player.handTiles ++ [t] }) with
            wall := wall2, phase := .postDraw }

/-- `discardTile` from `game.ts`.  Phase: postDraw/discard → claimWindow. -/
def discardTile (state : GameState) (tile : Tile) : Except String GameState :=
  if state.phase ≠ .postDraw ∧ state.phase ≠ .discard then
    .error "Cannot discard in phase"
  else
    let pi := state.currentPlayerIndex
    let player := getPlayer state pi
    match removeTileById player.handTiles tile.id with
    | (none, _) => .error "Tile not in hand"
    | (some _, hand2) =>
      let player := { player with
        handTiles := hand2, discards := player.discards ++ [tile] }
      .ok { (setPlayer state pi player) with
            lastDiscard := some tile, lastDiscardPlayerIndex := some pi,
            phase := .claimWindow, firstTurnComplete := true }

/-- `claimPong` from `game.ts`. -/
def claimPong (state : GameState) (claimingPlayerIndex : Nat) :
    Except String GameState :=
  match state.phase, state.lastDiscard, state.lastDiscardPlayerIndex with
  | .claimWindow, some d, some di =>
    if claimingPlayerIndex = di then .error "Cannot pong your own discard"
    else
      let player := getPlayer state claimingPlayerIndex
      let key := tileKey d
      if countInHand player.handTiles key < 2 then
        .error "Not enough matching tiles for pong"
      else
        let (r1, h1) := removeOneTile player.handTiles key
        let (r2, h2) := removeOneTile h1 key
        let meld : MeldedSet := ⟨.pung, [d] ++ r1.toList ++ r2.toList, false⟩
        let player := { player with
          handTiles := h2, openMelds := player.openMelds ++ [meld] }
        let s1 := setPlayer state claimingPlayerIndex player
        let discarder := getPlayer s1 di
        let s2 := setPlayer s1 di
          { discarder with discards := discarder.discards.dropLast }
        .ok { s2 with
              lastDiscard := none, lastDiscardPlayerIndex := none,
              currentPlayerIndex := claimingPlayerIndex, phase := .discard }
  | _, _, _ => .error "Cannot claim pong outside claimWindow"

/-- `claimChow` from `game.ts`.  The claimant supplies the two hand tiles;
the three tiles are sorted by (suit, value) — by kind code — and must be
one numbered suit with strictly consecutive values. -/
def claimChow (state : GameState) (claimingPlayerIndex : Nat)
    (chow1 chow2 : Tile) : Except String GameState :=
  match state.phase, state.lastDiscard, state.lastDiscardPlayerIndex with
  | .claimWindow, some d, some di =>
    if ¬ isLeftOf claimingPlayerIndex di then
      .error "Chow can only be claimed by the next player in turn order"
    else
      let allThree := ([d, chow1, chow2]).mergeSort (fun a b => tileKey a ≤ tileKey b)
      match allThree.map tileKey with
      | [k0, k1, k2] =>
        if ¬ (k0 < 27) then .error "Chow must be a numbered suit"
        else if ¬ (k1 / 9 = k0 / 9 ∧ k2 / 9 = k0 / 9) then
          .error "Chow tiles must be the same suit"
        else if ¬ (k1 = k0 + 1 ∧ k2 = k1 + 1) then
          .error "Chow tiles must be consecutive"
        else
          let player := getPlayer state claimingPlayerIndex
          match removeTileById player.handTiles chow1.id with
          | (none, _) => .error "Chow tile not in hand"
          | (some _, h1) =>
            match removeTileById h1 chow2.id with
            | (none, _) => .error "Chow tile not in hand"
            | (some _, h2) =>
              let meld : MeldedSet := ⟨.chow, allThree, false⟩
              let player := { player with
                handTiles := h2, openMelds := player.openMelds ++ [meld] }
              let s1 := setPlayer state claimingPlayerIndex player
              let discarder := getPlayer s1 di
              let s2 := setPlayer s1 di
                { discarder with discards := discarder.discards.dropLast }
              .ok { s2 with
                    lastDiscard := none, lastDiscardPlayerIndex := none,
                    currentPlayerIndex := claimingPlayerIndex, phase := .discard }
      | _ => .error "Chow tiles must be consecutive"
  | _, _, _ => .error "Cannot claim chow outside claimWindow"

/-- `claimKong` from `game.ts`, including its inlined replacement draw
(which, unlike `drawKongReplacement`, draws at most twice — the source
comments "simplified: may need further replacement"). -/
def claimKong (state : GameState) (claimingPlayerIndex : Nat) :
    Except String GameState :=
  match state.phase, state.lastDiscard, state.lastDiscardPlayerIndex with
  | .claimWindow, some d, some di =>
    if claimingPlayerIndex = di then .error "Cannot kong your own discard"
    else
      let player := getPlayer state claimingPlayerIndex
      let key := tileKey d
      if countInHand player.handTiles key < 3 then
        .error "Not enough matching tiles for kong"
      else
        let (r1, h1) := removeOneTile player.handTiles key
        let (r2, h2) := removeOneTile h1 key
        let (r3, h3) := removeOneTile h2 key
        let meld : MeldedSet := ⟨.kong, [d] ++ r1.toList ++ r2.toList ++ r3.toList, false⟩
        let player := { player with
          handTiles := h3, openMelds := player.openMelds ++ [meld] }
        let s1 := setPlayer state claimingPlayerIndex player
        let discarder := getPlayer s1 di
        let s2 := { (setPlayer s1 di
            { discarder with discards := discarder.discards.dropLast }) with
          lastDiscard := none, lastDiscardPlayerIndex := none,
          currentPlayerIndex := claimingPlayerIndex }
        match drawFromDeadWall s2.deadWall with
        | none =>
          .ok { s2 with phase := .roundOver, result := some noContest }
        | some (replacement, dw1) =>
          if replacement.isBonus then
            let p1 := getPlayer s2 claimingPlayerIndex
            let p1 := { p1 with bonusTiles := p1.bonusTiles ++ [replacement] }
            let s3 := setPlayer s2 claimingPlayerIndex p1
            match drawFromDeadWall dw1 with
            | some (next, dw2) =>
              if ¬ next.isBonus then
                let p2 := getPlayer s3 claimingPlayerIndex
                let p2 := { p2 with handTiles := p2.handTiles ++ [next] }
                .ok { (setPlayer s3 claimingPlayerIndex p2) with
                      deadWall := dw2, phase := .postDraw }
              else
                let p2 := getPlayer s3 claimingPlayerIndex
                let p2 := { p2 with bonusTiles := p2.bonusTiles ++ [next] }
                .ok { (setPlayer s3 claimingPlayerIndex p2) with
                      deadWall := dw2, phase := .postDraw }
            | none =>
              .ok { s3 with
                    deadWall := dw1, phase := .roundOver,
                    result := some noContest }
          else
            let p1 := getPlayer s2 claimingPlayerIndex
            let p1 := { p1 with handTiles := p1.handTiles ++ [replacement] }
            .ok { (setPlayer s2 claimingPlayerIndex p1) with
                  deadWall := dw1, phase := .postDraw }
  | _, _, _ => .error "Cannot claim kong outside claimWindow"

/-- `claimWin` from `game.ts`.  Note: no check that the claimant differs
from the discarder; the winner is the claimant and the loser is
`lastDiscardPlayerIndex` (fields of the result relevant to the claims;
the scoring payload is elided). -/
def claimWin (state : GameState) (claimingPlayerIndex : Nat) :
    Except String GameState :=
  match state.phase, state.lastDiscard, state.lastDiscardPlayerIndex with
  | .claimWindow, some d, some di =>
    let player := getPlayer state claimingPlayerIndex
    let fullHand := reconstructFullHand player (some d)
    if ¬ (parseHand fullHand).valid then .error "Not a winning hand"
    else
      let result : GameResult := ⟨.win, some claimingPlayerIndex, some di⟩
      let discarder := getPlayer state di
      let s1 := setPlayer state di
        { discarder with discards := discarder.discards.dropLast }
      .ok { s1 with phase := .roundOver, result := some result }
  | _, _, _ => .error "Cannot claim win outside claimWindow"

/-- `passClaim` from `game.ts`.  (`nextPlayer(lastDiscardPlayerIndex!)`:
JS coerces a null index to 0 in the arithmetic, rendered by `getD 0`.) -/
def passClaim (state : GameState) : Except String GameState :=
  if state.phase ≠ .claimWindow then .error "Cannot pass outside claimWindow"
  else
    .ok { state with
          lastDiscard := none, lastDiscardPlayerIndex := none,
          currentPlayerIndex := nextPlayer (state.lastDiscardPlayerIndex.getD 0),
          phase := .draw, turnNumber := state.turnNumber + 1 }

/-- The bonus-skipping replacement loop of `drawKongReplacement`, acting
on the reversed dead wall (the source pops from the back): pop tiles,
setting bonus tiles aside, until a non-bonus tile is obtained or the dead
wall empties. -/
def deadLoopGo : List Tile → List Tile → List Tile × List Tile × Option Tile
  | [], acc => ([], acc, none)
  | t :: rest, acc =>
    if t.isBonus then deadLoopGo rest (acc ++ [t])
    else (rest, acc, some t)

/-- `drawKongReplacement` from `game.ts`: draw from the back of the dead
wall, repeatedly replacing bonus tiles; on exhaustion the round ends with
a no-contest result (never an error), otherwise the tile joins the hand
and the phase becomes postDraw. -/
def drawKongReplacement (state : GameState) (playerIndex : Nat) : GameState :=
  let (revRest, bonus, tileOpt) := deadLoopGo state.deadWall.reverse []
  let dw2 := revRest.reverse
  let player := getPlayer state playerIndex
  let player := { player with bonusTiles := player.bonusTiles ++ bonus }
  match tileOpt with
  | none =>
    { (setPlayer state playerIndex player) with
      deadWall := dw2, phase := .roundOver, result := some noContest }
  | some t =>
    { (setPlayer state playerIndex
        { player with handTiles := player.handTiles ++ [t] }) with
      deadWall := dw2, phase := .postDraw }

/-- `declareKong` from `game.ts`: concealed kong of 4 identical hand
tiles, then a replacement draw. -/
def declareKong (state : GameState) (kongTiles : List Tile) :
    Except String GameState :=
  if state.phase ≠ .postDraw then .error "Cannot declare kong outside postDraw"
  else if kongTiles.length ≠ 4 then .error "Kong must be exactly 4 tiles"
  else
    let key := tileKey (kongTiles.headD dummyTile)
    if ¬ kongTiles.all (fun t => tileKey t == key) then
      .error "Kong tiles must all be the same"
    else
      let pi := state.currentPlayerIndex
      let player := getPlayer state pi
      match removeAllById player.handTiles kongTiles with
      | none => .error "Kong tile not in hand"
      | some hand2 =>
        let meld : MeldedSet := ⟨.kong, kongTiles, true⟩
        let player := { player with
          handTiles := hand2, openMelds := player.openMelds ++ [meld] }
        .ok (drawKongReplacement (setPlayer state pi player) pi)

/-- `promotePungToKong` from `game.ts`: upgrade the first matching open
pung in place, then a replacement draw (no rob-the-kong window). -/
def promotePungToKong (state : GameState) (tile : Tile) :
    Except String GameState :=
  if state.phase ≠ .postDraw then .error "Cannot promote pung outside postDraw"
  else
    let pi := state.currentPlayerIndex
    let player := getPlayer state pi
    let key := tileKey tile
    match player.openMelds.findIdx? (fun m =>
        m.type == .pung && !m.concealed && tileKey (m.tiles.headD dummyTile) == key) with
    | none => .error "No matching open pung to promote"
    | some pungIdx =>
      match removeTileById player.handTiles tile.id with
      | (none, _) => .error "Tile not in hand"
      | (some _, hand2) =>
        let meld := player.openMelds.getD pungIdx ⟨.pung, [], false⟩
        let meld := { meld with type := .kong, tiles := meld.tiles ++ [tile] }
        let player := { player with
          handTiles := hand2, openMelds := player.openMelds.set pungIdx meld }
        .ok (drawKongReplacement (setPlayer state pi player) pi)

/-- `declareSelfWin` from `game.ts`: self-drawn win; the result carries no
loser. -/
def declareSelfWin (state : GameState) : Except String GameState :=
  if state.phase ≠ .postDraw then .error "Cannot declare self-win outside postDraw"
  else
    let pi := state.currentPlayerIndex
    let player := getPlayer state pi
    let fullHand := reconstructFullHand player none
    if ¬ (parseHand fullHand).valid then .error "Not a winning hand"
    else
      .ok { state with
            phase := .roundOver, result := some ⟨.win, some pi, none⟩ }

/-! ### Legal-action query (`getValidActions` and the `can*` helpers) -/

/-- `PlayerAction` from `game-types.ts`. -/
inductive PlayerAction where
  | discard (tile : Tile)
  | declareKong (tiles : List Tile)
  | promotePungToKong (tile : Tile)
  | declareSelfWin
  | claimPong
  | claimChow (chow1 chow2 : Tile)
  | claimKong
  | claimWin
  | pass
deriving DecidableEq, Repr

/-- `canPlayerWin` from `game.ts`. -/
def canPlayerWin (state : GameState) (playerIndex : Nat)
    (extraTile : Option Tile) : Bool :=
  let fullHand := reconstructFullHand (getPlayer state playerIndex) extraTile
  fullHand.length == 14 && (parseHand fullHand).valid

/-- `canPong` from `game.ts`. -/
def canPong (state : GameState) (playerIndex : Nat) : Bool :=
  match state.lastDiscard with
  | none => false
  | some d =>
    !(state.lastDiscardPlayerIndex == some playerIndex) &&
      decide (2 ≤ countInHand (getPlayer state playerIndex).handTiles (tileKey d))

/-- `canKongFromDiscard` from `game.ts`. -/
def canKongFromDiscard (state : GameState) (playerIndex : Nat) : Bool :=
  match state.lastDiscard with
  | none => false
  | some d =>
    !(state.lastDiscardPlayerIndex == some playerIndex) &&
      decide (3 ≤ countInHand (getPlayer state playerIndex).handTiles (tileKey d))

/-- `canChow` from `game.ts`: the chow combinations available to the left
player (the source returns `false` for "none", rendered as `[]`). -/
def canChow (state : GameState) (playerIndex : Nat) : List (Tile × Tile) :=
  match state.lastDiscard with
  | none => []
  | some d =>
    if ¬ isLeftOf playerIndex (state.lastDiscardPlayerIndex.getD 0) then []
    else if ¬ (tileKey d < 27) then []
    else
      let hand := (getPlayer state playerIndex).handTiles
      let v := tileKey d % 9 + 1
      let base := tileKey d / 9 * 9
      let sequences :=
        (if 3 ≤ v then [(v - 2, v - 1)] else []) ++
        (if 2 ≤ v ∧ v ≤ 8 then [(v - 1, v + 1)] else []) ++
        (if v ≤ 7 then [(v + 1, v + 2)] else [])
      sequences.foldl (fun acc vv =>
        let k1 := base + vv.1 - 1
        let k2 := base + vv.2 - 1
        match hand.find? (fun t => tileKey t = k1),
              hand.find? (fun t => tileKey t = k2) with
        | some t1, some t2 => acc ++ [(t1, t2)]
        | _, _ => acc) []

/-- Key list of a JS `Map` built over a hand: first-occurrence (insertion)
order. -/
def dedupKeys (ts : List Tile) : List Nat :=
  ts.foldl (fun acc t => if tileKey t ∈ acc then acc else acc ++ [tileKey t]) []

/-- `canDeclareConcealedKong` from `game.ts` (keys with exactly 4 copies
in the current player's hand; `false` rendered as `[]`). -/
def canDeclareConcealedKong (state : GameState) : List Nat :=
  let hand := (getPlayer state state.currentPlayerIndex).handTiles
  (dedupKeys hand).filter (fun k => countInHand hand k = 4)

/-- `canPromotePung` from `game.ts` (keys of open pungs whose fourth tile
is in hand; `false` rendered as `[]`). -/
def canPromotePung (state : GameState) : List Nat :=
  let player := getPlayer state state.currentPlayerIndex
  (player.openMelds.filter (fun m =>
      m.type == .pung && !m.concealed &&
        player.handTiles.any (fun t => tileKey t == tileKey (m.tiles.headD dummyTile)))).map
    (fun m => tileKey (m.tiles.headD dummyTile))

/-- `getValidActions` from `game.ts`: every currently permitted action for
a seat, in the source's construction order. -/
def getValidActions (state : GameState) (playerIndex : Nat) : List PlayerAction :=
  let player := getPlayer state playerIndex
  let postDrawActions :=
    if state.phase = .postDraw ∧ playerIndex = state.currentPlayerIndex then
      player.handTiles.map (fun t => PlayerAction.discard t) ++
      (if canPlayerWin state playerIndex none then [PlayerAction.declareSelfWin] else []) ++
      (canDeclareConcealedKong state).map (fun key =>
        PlayerAction.declareKong (player.handTiles.filter (fun t => tileKey t = key))) ++
      ((canPromotePung state).map (fun key =>
        match player.handTiles.find? (fun t => tileKey t = key) with
        | some t => [PlayerAction.promotePungToKong t]
        | none => [])).flatten
    else []
  let discardActions :=
    if state.phase = .discard ∧ playerIndex = state.currentPlayerIndex then
      player.handTiles.map (fun t => PlayerAction.discard t)
    else []
  let claimActions :=
    if state.phase = .claimWindow ∧ state.lastDiscardPlayerIndex ≠ some playerIndex then
      (if canPlayerWin state playerIndex state.lastDiscard then [PlayerAction.claimWin] else []) ++
      (if canPong state playerIndex then [PlayerAction.claimPong] else []) ++
      (if canKongFromDiscard state playerIndex then [PlayerAction.claimKong] else []) ++
      (canChow state playerIndex).map (fun p => PlayerAction.claimChow p.1 p.2) ++
      [PlayerAction.pass]
    else []
  postDrawActions ++ discardActions ++ claimActions

/-- State-passing rendering of `getValidActions`: the source performs no
writes to the game state (in contrast with the transitions, which go
through `cloneState`), so the state-passing translation returns the input
state unchanged alongside the action list. -/
def getValidActionsS (state : GameState) (playerIndex : Nat) :
    List PlayerAction × GameState :=
  (getValidActions state playerIndex, state)

/-! ### Claim resolution (`resolveClaimWindow`)

The asynchronous collection of AI decisions is orchestration; the
deterministic core is the priority computation and the selection of the
single claim to honor. -/

/-- The claim kinds competing for one discard. -/
inductive ClaimKind where
  | cwin
  | cpong
  | ckong
  | cchow
deriving DecidableEq, Repr

/-- One collected claim: which seat, and which kind of claim. -/
structure ClaimReq where
  playerIndex : Nat
  ckind : ClaimKind
deriving DecidableEq, Repr

/-- The base priority switch of `resolveClaimWindow`:
win 100, pong/kong 50, chow 10. -/
def claimBasePriority : ClaimKind → Nat
  | .cwin => 100
  | .cpong => 50
  | .ckong => 50
  | .cchow => 10

/-- `(i - discarderIdx + 4) % 4` (JS arithmetic on indexes 0-3). -/
def claimDistance (discarderIdx i : Nat) : Nat := (i + 4 - discarderIdx) % 4

/-- `priority + (4 - distance)`: closer to the discarder = higher. -/
def claimPriority (discarderIdx : Nat) (c : ClaimReq) : Nat :=
  claimBasePriority c.ckind + (4 - claimDistance discarderIdx c.playerIndex)

/-- The selection of `resolveClaimWindow`: collected claims are sorted by
priority descending (a stable sort) and the first is applied; equivalently
the earliest claim of maximal priority. -/
def resolveClaimSelection (discarderIdx : Nat) (claims : List ClaimReq) :
    Option ClaimReq :=
  claims.foldl (fun best c =>
    match best with
    | none => some c
    | some b =>
      if claimPriority discarderIdx b < claimPriority discarderIdx c then some c
      else best) none

/-! ## Spec-side definitions (for refinement statements)

These follow the specification's wording and are compared against the
source-derived definitions above. -/

/-- Footprint of a meld on a kind: how many tiles of kind `i` it uses. -/
def fpMeld : MeldK → Nat → Nat
  | .pung r, i => if i = r then 3 else 0
  | .kong r, i => if i = r then 4 else 0
  | .chow r, i => if i = r ∨ i = r + 1 ∨ i = r + 2 then 1 else 0

/-- Footprint of the (optional) pair on a kind. -/
def fpPair : Option Nat → Nat → Nat
  | none, _ => 0
  | some p, i => if i = p then 2 else 0

/-- A structurally valid meld: triplets/quadruplets of any kind, runs only
inside one numbered suit (head rank `r < 27` with `r % 9 ≤ 6`). -/
def ValidMeld : MeldK → Prop
  | .pung r => r < 34
  | .kong r => r < 34
  | .chow r => r < 27 ∧ r % 9 ≤ 6

instance (m : MeldK) : Decidable (ValidMeld m) := by
  cases m <;> (unfold ValidMeld; infer_instance)

def IsKong : MeldK → Prop
  | .kong _ => True
  | _ => False

instance (m : MeldK) : Decidable (IsKong m) := by
  cases m <;> (unfold IsKong; infer_instance)

/-- Total footprint of a multiset of melds on a kind. -/
def fpM (M : Multiset MeldK) (i : Nat) : Nat := (M.map (fun m => fpMeld m i)).sum

/-- Total footprint of a list of melds on a kind. -/
def fpL (L : List MeldK) (i : Nat) : Nat := (L.map (fun m => fpMeld m i)).sum

/-- The tiles of melds `M` plus pair `p` exactly account for `counts`
(kinds range over the 34 ranks). -/
def Covers (counts : List Nat) (M : Multiset MeldK) (p : Option Nat) : Prop :=
  ∀ i ∈ List.range 34, cnt counts i = fpM M i + fpPair p i

instance (counts : List Nat) (M : Multiset MeldK) (p : Option Nat) :
    Decidable (Covers counts M p) := by
  unfold Covers; infer_instance

/-- Modelled from the spec: a decomposition of the tile multiset into
4 melds plus 1 pair ("standard pattern"). -/
def IsStdDecomp (counts : List Nat) (M : Multiset MeldK) (p : Nat) : Prop :=
  Multiset.card M = 4 ∧ (∀ m ∈ M, ValidMeld m) ∧ p < 34 ∧ Covers counts M (some p)

instance (counts : List Nat) (M : Multiset MeldK) (p : Nat) :
    Decidable (IsStdDecomp counts M p) := by
  unfold IsStdDecomp; infer_instance

/-- Modelled from the spec: the seven-pairs pattern — the multiset groups
into exactly 7 distinct kinds, each with count exactly 2. -/
def SevenPairsSpec (counts : List Nat) : Prop :=
  countsSize counts = 7 ∧ ∀ i ∈ List.range 34, cnt counts i = 0 ∨ cnt counts i = 2

/-- Modelled from the spec: the thirteen-distinct (terminal/honor)
pattern — each of the 13 designated kinds present at least once, none
exceeding 2, at most one with count exactly 2, and those 13 kinds
accounting for all 14 tiles. -/
def ThirteenOrphansSpec (counts : List Nat) : Prop :=
  (∀ k ∈ orphanKeys, 1 ≤ cnt counts k) ∧
  (∀ k ∈ orphanKeys, cnt counts k ≤ 2) ∧
  (orphanKeys.filter (fun k => cnt counts k = 2)).length ≤ 1 ∧
  (orphanKeys.map (cnt counts)).sum = 14

/-! ## Tile-accounting sums (for the conservation claims)

`specTileSum` lists exactly the zones named by the specification's global
invariant (hands, melds, bonus piles, live wall, dead wall);
`fullTileSum` additionally counts the discard piles. -/

def playerTileCount (p : PlayerState) : Nat :=
  p.handTiles.length + (p.openMelds.map (fun m => m.tiles.length)).sum +
    p.bonusTiles.length

/-- The specification's zone list: hands + melds + bonus piles + live wall
+ dead wall. -/
def specTileSum (s : GameState) : Nat :=
  (s.players.map playerTileCount).sum + s.wall.length + s.deadWall.length

def playerTileCountD (p : PlayerState) : Nat :=
  playerTileCount p + p.discards.length

/-- The zone list amended with the discard piles. -/
def fullTileSum (s : GameState) : Nat :=
  (s.players.map playerTileCountD).sum + s.wall.length + s.deadWall.length

/-! ## Concrete instances used by witnesses and counterexamples -/

/-- Shorthand: non-bonus tile of kind `k` with id `i`. -/
def kt (i k : Nat) : Tile := ⟨i, k, false⟩

/-- Shorthand: bonus tile (kind `34 + j`) with id `100 + j`. -/
def bt (j : Nat) : Tile := ⟨100 + j, 34 + j, true⟩

/-- The spec's thirteen-distinct example: one copy of each terminal and
honor kind plus a second bamboo-1. -/
def orphanExampleTiles : List Tile :=
  [kt 0 0, kt 1 8, kt 2 18, kt 3 26, kt 4 9, kt 5 17, kt 6 30, kt 7 31,
   kt 8 32, kt 9 33, kt 10 27, kt 11 28, kt 12 29, kt 13 0]

/-- 111 222 333 bamboo + 456 bamboo + a pair of dots-9: a hand with
ambiguous run/triplet boundaries (two decompositions). -/
def ambiguousTiles : List Tile :=
  [kt 0 0, kt 1 0, kt 2 0, kt 3 1, kt 4 1, kt 5 1, kt 6 2, kt 7 2, kt 8 2,
   kt 9 3, kt 10 4, kt 11 5, kt 12 26, kt 13 26]

/-- The winning tile for the self-discard-claim scenario (dots-5). -/
def dWin : Tile := kt 99 22

/-- A claim-window state in which the discarder (seat 0) could "claim"
their own discard `dWin` for a win: seat 0 holds bamboo 1-9, a pung of
dots-1 and a lone dots-5. -/
def stWin : GameState where
  players :=
    [⟨[kt 1 0, kt 2 1, kt 3 2, kt 4 3, kt 5 4, kt 6 5, kt 7 6, kt 8 7,
       kt 9 8, kt 10 18, kt 11 18, kt 12 18, kt 13 22], [], [], [dWin]⟩,
     ⟨[kt 20 10], [], [], []⟩, emptyPlayer, emptyPlayer]
  wall := [kt 30 11]
  deadWall := [kt 31 12]
  currentPlayerIndex := 0
  phase := .claimWindow
  turnNumber := 1
  firstTurnComplete := true
  lastDiscard := some dWin
  lastDiscardPlayerIndex := some 0
  result := none

/-- A claim-window state whose dead wall ends in two bonus tiles with a
non-bonus tile still below them; seat 0 holds three tiles matching the
pending discard (kind 9) and can claim a kong. -/
def stBugC1 : GameState where
  players :=
    [⟨[kt 1 9, kt 2 9, kt 3 9, kt 4 7], [], [], []⟩,
     ⟨[kt 10 2], [], [], [kt 11 9]⟩, emptyPlayer, emptyPlayer]
  wall := [kt 20 3]
  deadWall := [kt 30 6, bt 1, bt 2]
  currentPlayerIndex := 1
  phase := .claimWindow
  turnNumber := 1
  firstTurnComplete := true
  lastDiscard := some (kt 11 9)
  lastDiscardPlayerIndex := some 1
  result := none

/-- Like `stBugC1` but the dead wall holds exactly two bonus tiles, so a
kong replacement exhausts it without yielding a tile. -/
def stBugC6 : GameState := { stBugC1 with deadWall := [bt 1, bt 2] }

/-- A minimal post-draw state: seat 0 holds one tile and discards it. -/
def stC3 : GameState where
  players := [⟨[kt 1 5], [], [], []⟩, emptyPlayer, emptyPlayer, emptyPlayer]
  wall := []
  deadWall := []
  currentPlayerIndex := 0
  phase := .postDraw
  turnNumber := 0
  firstTurnComplete := false
  lastDiscard := none
  lastDiscardPlayerIndex := none
  result := none

/-! # Theorems -/

/-! ## General helper lemmas about count vectors -/

theorem sum_set_add (l : List Nat) (k v : Nat) (h : k < l.length) :
    (l.set k v).sum + l.getD k 0 = l.sum + v := by
  induction l generalizing k with
  | nil => simp at h
  | cons a as ih =>
    cases k with
    | zero => simp [List.set]; omega
    | succ k =>
      simp only [List.set, List.sum_cons, List.getD_cons_succ]
      have := ih k (by simpa using h)
      omega

theorem cnt_set_self (l : List Nat) (k v : Nat) (h : k < l.length) :
    cnt (l.set k v) k = v := by
  simp [cnt, List.getD_eq_getElem?_getD, List.getElem?_set_self', h]

theorem cnt_set_of_ne (l : List Nat) (k v j : Nat) (h : j ≠ k) :
    cnt (l.set k v) j = cnt l j := by
  simp [cnt, List.getD_eq_getElem?_getD, List.getElem?_set_ne (Ne.symm h)]

theorem cnt_le_sum (l : List Nat) (k : Nat) : cnt l k ≤ l.sum := by
  induction l generalizing k with
  | nil => simp [cnt]
  | cons a as ih =>
    cases k with
    | zero => simp only [cnt, List.getD_cons_zero, List.sum_cons]; omega
    | succ k =>
      simp only [cnt, List.getD_cons_succ, List.sum_cons]
      have := ih k
      simp only [cnt] at this
      omega

theorem cnt_eq_zero_of_sum_eq_zero (l : List Nat) (h : l.sum = 0) (k : Nat) :
    cnt l k = 0 := by
  have := cnt_le_sum l k
  omega

theorem cnt_of_ge_length (l : List Nat) (k : Nat) (h : l.length ≤ k) :
    cnt l k = 0 := by
  simp [cnt, List.getD_eq_getElem?_getD, List.getElem?_eq_none h]

theorem sum_eq_range_sum (l : List Nat) :
    l.sum = ∑ r in Finset.range l.length, cnt l r := by
  induction l with
  | nil => simp
  | cons a as ih =>
    rw [List.sum_cons, List.length_cons, Finset.sum_range_succ']
    have h1 : ∀ r, cnt (a :: as) (r + 1) = cnt as r := fun r => by simp [cnt]
    have h0 : cnt (a :: as) 0 = a := by simp [cnt]
    simp only [h1, h0, ← ih]
    omega

theorem countsSize_eq_card (l : List Nat) :
    countsSize l = ((Finset.range l.length).filter (fun r => 0 < cnt l r)).card := by
  induction l with
  | nil => simp [countsSize]
  | cons a as ih =>
    rw [Finset.card_filter, List.length_cons, Finset.sum_range_succ']
    have h1 : ∀ r, (if 0 < cnt (a :: as) (r + 1) then 1 else 0)
        = if 0 < cnt as r then 1 else 0 := fun r => by simp [cnt]
    simp only [h1]
    rw [← Finset.card_filter, ← ih]
    by_cases ha : 0 < a
    · simp [countsSize, cnt, ha]
    · simp [countsSize, cnt, ha]

theorem sum_map_set {α : Type} (l : List α) (i : Nat) (p : α) (d : α)
    (f : α → Nat) (h : i < l.length) :
    ((l.set i p).map f).sum + f (l.getD i d) = (l.map f).sum + f p := by
  induction l generalizing i with
  | nil => simp at h
  | cons a as ih =>
    cases i with
    | zero => simp [List.set]; omega
    | succ i =>
      simp only [List.set, List.map_cons, List.sum_cons, List.getD_cons_succ]
      have := ih i (by simpa using h)
      omega

/-! ## Counting lemmas for `tilesToCounts` -/

theorem tilesToCounts_length (tiles : List Tile) :
    (tilesToCounts tiles).length = 34 := by
  simp [tilesToCounts]

theorem cnt_tilesToCounts (tiles : List Tile) (r : Nat) (hr : r < 34) :
    cnt (tilesToCounts tiles) r
      = (tiles.filter (fun t => tileKey t = r)).length := by
  simp [cnt, tilesToCounts, List.getD_eq_getElem?_getD, List.getElem?_map,
    List.getElem?_range hr]

theorem tilesToCounts_sum (tiles : List Tile)
    (h : ∀ t ∈ tiles, tileKey t < 34) :
    (tilesToCounts tiles).sum = tiles.length := by
  have key : (tilesToCounts tiles).sum
      = ∑ r in Finset.range 34, ((tiles.map tileKey) : Multiset Nat).count r := by
    show ((List.range 34).map _).sum = _
    rw [show ((List.range 34).map
          (fun r => (tiles.filter (fun t => tileKey t = r)).length)).sum
        = ∑ r in Finset.range 34,
            (tiles.filter (fun t => tileKey t = r)).length from rfl]
    refine Finset.sum_congr rfl (fun r _ => ?_)
    simp only [Multiset.coe_count, List.count_eq_countP, List.countP_map,
      Function.comp, ← List.countP_eq_length_filter]
    congr 1
  rw [key, Multiset.sum_count_eq_card]
  · simp
  · intro a ha
    simp only [Multiset.mem_coe, List.mem_map] at ha
    obtain ⟨t, ht, rfl⟩ := ha
    simpa using h t ht

/-! ## C7: malformed input to `parseHand` -/

/-- C7: for every input tile list whose length is not 14 or which contains
a bonus tile, `parseHand` returns `valid = false`, no decompositions, and
both pattern flags false (it is a total function — never an error). -/
theorem C7_parseHand_rejects_malformed (tiles : List Tile)
    (h : tiles.length ≠ 14 ∨ ∃ t ∈ tiles, t.isBonus = true) :
    parseHand tiles = ⟨false, [], false, false⟩ := by
  unfold parseHand
  rcases h with h | ⟨t, ht, hb⟩
  · simp [h]
  · have hany : tiles.any (fun t => t.isBonus) = true :=
      List.any_eq_true.mpr ⟨t, ht, hb⟩
    by_cases hlen : tiles.length = 14
    · simp [hlen, hany]
    · simp [hlen]

theorem C7_parseHand_rejects_malformed_witness :
    (([] : List Tile).length ≠ 14 ∨ ∃ t ∈ ([] : List Tile), t.isBonus = true) ∧
      parseHand [] = ⟨false, [], false, false⟩ :=
  ⟨Or.inl (by decide), C7_parseHand_rejects_malformed [] (Or.inl (by decide))⟩

/-! ## C8: the legal-action query is pure and idempotent -/

/-- C8: `getValidActions` does not mutate the state (its state-passing
rendering returns the input state unchanged), and two consecutive
invocations on the same state return identical action lists. -/
theorem C8_getValidActions_pure_idempotent (s : GameState) (i : Nat) :
    (getValidActionsS s i).2 = s ∧
      (getValidActionsS ((getValidActionsS s i).2) i).1
        = (getValidActionsS s i).1 :=
  ⟨rfl, rfl⟩

/-! ## C5: the thirteen-distinct check -/

theorem orphanFold_false (counts : List Nat) (keys : List Nat) (p : Bool) :
    keys.foldl (orphanStep counts) (false, p) = (false, p) := by
  induction keys with
  | nil => rfl
  | cons k ks ih =>
    rw [List.foldl_cons]
    have hstep : orphanStep counts (false, p) k = (false, p) := by
      simp [orphanStep]
    rw [hstep, ih]

theorem orphanFold_fst (counts : List Nat) (keys : List Nat) (p : Bool) :
    (keys.foldl (orphanStep counts) (true, p)).1 = true ↔
      ((∀ k ∈ keys, 1 ≤ cnt counts k ∧ cnt counts k ≤ 2) ∧
        (keys.filter (fun k => cnt counts k = 2)).length + p.toNat ≤ 1) := by
  induction keys generalizing p with
  | nil => cases p <;> simp
  | cons k ks ih =>
    rw [List.foldl_cons, List.filter_cons]
    by_cases h0 : cnt counts k = 0
    · have hstep : orphanStep counts (true, p) k = (false, p) := by
        simp [orphanStep, h0]
      rw [hstep, orphanFold_false]
      constructor
      · intro h; simp at h
      · rintro ⟨h1, -⟩
        have := (h1 k (List.mem_cons_self k ks)).1
        omega
    · by_cases h2 : cnt counts k = 2
      · by_cases hp : p = true
        · subst hp
          have hstep : orphanStep counts (true, true) k = (false, true) := by
            simp [orphanStep, h0, h2]
          rw [hstep, orphanFold_false, if_pos (by simpa using h2)]
          constructor
          · intro h; simp at h
          · rintro ⟨-, h3⟩
            simp only [List.length_cons, Bool.toNat_true] at h3
            omega
        · simp only [Bool.not_eq_true] at hp
          subst hp
          have hstep : orphanStep counts (true, false) k = (true, true) := by
            simp [orphanStep, h0, h2]
          rw [hstep, ih true, if_pos (by simpa using h2)]
          simp only [List.length_cons, Bool.toNat_true, Bool.toNat_false]
          constructor
          · rintro ⟨ha, hb⟩
            refine ⟨fun x hx => ?_, by omega⟩
            rcases List.mem_cons.mp hx with rfl | hx
            · omega
            · exact ha x hx
          · rintro ⟨ha, hb⟩
            exact ⟨fun x hx => ha x (List.mem_cons_of_mem _ hx), by omega⟩
      · by_cases hgt : 2 < cnt counts k
        · have hstep : orphanStep counts (true, p) k = (false, p) := by
            simp [orphanStep, h0, h2, hgt]
          rw [hstep, orphanFold_false]
          constructor
          · intro h; simp at h
          · rintro ⟨h1, -⟩
            have := (h1 k (List.mem_cons_self k ks)).2
            omega
        · have h1 : cnt counts k = 1 := by omega
          have hstep : orphanStep counts (true, p) k = (true, p) := by
            simp [orphanStep, h1]
          rw [hstep, ih p, if_neg (by simpa using h2)]
          constructor
          · rintro ⟨ha, hb⟩
            refine ⟨fun x hx => ?_, hb⟩
            rcases List.mem_cons.mp hx with rfl | hx
            · omega
            · exact ha x hx
          · rintro ⟨ha, hb⟩
            exact ⟨fun x hx => ha x (List.mem_cons_of_mem _ hx), hb⟩

theorem orphanFold_snd (counts : List Nat) (keys : List Nat) (p : Bool)
    (h : (keys.foldl (orphanStep counts) (true, p)).1 = true) :
    (keys.foldl (orphanStep counts) (true, p)).2
      = (p || decide (1 ≤ (keys.filter (fun k => cnt counts k = 2)).length)) := by
  induction keys generalizing p with
  | nil => cases p <;> simp
  | cons k ks ih =>
    rw [List.foldl_cons] at h ⊢
    rw [List.filter_cons]
    by_cases h0 : cnt counts k = 0
    · have hstep : orphanStep counts (true, p) k = (false, p) := by
        simp [orphanStep, h0]
      rw [hstep, orphanFold_false] at h
      simp at h
    · by_cases h2 : cnt counts k = 2
      · by_cases hp : p = true
        · subst hp
          have hstep : orphanStep counts (true, true) k = (false, true) := by
            simp [orphanStep, h0, h2]
          rw [hstep, orphanFold_false] at h
          simp at h
        · simp only [Bool.not_eq_true] at hp
          subst hp
          have hstep : orphanStep counts (true, false) k = (true, true) := by
            simp [orphanStep, h0, h2]
          rw [hstep] at h ⊢
          rw [ih true h, if_pos (by simpa using h2)]
          simp
      · by_cases hgt : 2 < cnt counts k
        · have hstep : orphanStep counts (true, p) k = (false, p) := by
            simp [orphanStep, h0, h2, hgt]
          rw [hstep, orphanFold_false] at h
          simp at h
        · have h1 : cnt counts k = 1 := by omega
          have hstep : orphanStep counts (true, p) k = (true, p) := by
            simp [orphanStep, h1]
          rw [hstep] at h ⊢
          rw [if_neg (by simpa using h2), ih p h]

theorem sum_of_bounded_counts (counts : List Nat) (keys : List Nat)
    (h : ∀ k ∈ keys, 1 ≤ cnt counts k ∧ cnt counts k ≤ 2) :
    (keys.map (cnt counts)).sum
      = keys.length + (keys.filter (fun k => cnt counts k = 2)).length := by
  induction keys with
  | nil => simp
  | cons k ks ih =>
    rw [List.map_cons, List.sum_cons, List.filter_cons]
    have hk := h k (List.mem_cons_self k ks)
    have ihh := ih (fun x hx => h x (List.mem_cons_of_mem _ hx))
    by_cases h2 : cnt counts k = 2
    · simp only [h2]
      norm_num
      omega
    · have h1 : cnt counts k = 1 := by omega
      simp only [h2]
      norm_num
      omega

theorem countsSize_le_of_orphanSum (counts : List Nat)
    (hlen : counts.length = 34)
    (h : (orphanKeys.map (cnt counts)).sum = counts.sum) :
    countsSize counts ≤ 13 := by
  have hnd : orphanKeys.Nodup := by decide
  have hS : ∑ k in orphanKeys.toFinset, cnt counts k
      = (orphanKeys.map (cnt counts)).sum := List.sum_toFinset _ hnd
  have hsub : ((Finset.range counts.length).filter
      (fun r => 0 < cnt counts r)) ⊆ orphanKeys.toFinset := by
    intro r hr
    simp only [Finset.mem_filter, Finset.mem_range] at hr
    by_contra hout
    have hsubset : insert r orphanKeys.toFinset ⊆ Finset.range 34 := by
      intro x hx
      rcases Finset.mem_insert.mp hx with rfl | hx
      · exact Finset.mem_range.mpr (by omega)
      · have : x ∈ orphanKeys := List.mem_toFinset.mp hx
        fin_cases this <;> decide
    have hle : ∑ k in insert r orphanKeys.toFinset, cnt counts k
        ≤ ∑ k in Finset.range 34, cnt counts k :=
      Finset.sum_le_sum_of_subset hsubset
    rw [Finset.sum_insert hout, hS, h] at hle
    have : counts.sum = ∑ k in Finset.range 34, cnt counts k := by
      rw [sum_eq_range_sum, hlen]
    omega
  calc countsSize counts
      = ((Finset.range counts.length).filter (fun r => 0 < cnt counts r)).card :=
        countsSize_eq_card counts
    _ ≤ orphanKeys.toFinset.card := Finset.card_le_card hsub
    _ ≤ 13 := by decide

theorem checkThirteenOrphans_iff (counts : List Nat) (hlen : counts.length = 34)
    (hsum : counts.sum = 14) :
    checkThirteenOrphans counts = true ↔ ThirteenOrphansSpec counts := by
  unfold checkThirteenOrphans ThirteenOrphansSpec
  constructor
  · intro h
    by_cases hsz : countsSize counts > 13
    · simp [hsz] at h
    · simp only [hsz, if_false, Bool.and_eq_true, beq_iff_eq] at h
      obtain ⟨⟨hfst, -⟩, hsnd⟩ := h
      have hf := (orphanFold_fst counts orphanKeys false).mp hfst
      obtain ⟨hbd, htwo⟩ := hf
      have hs := orphanFold_snd counts orphanKeys false hfst
      rw [hs] at hsnd
      simp only [Bool.false_or, decide_eq_true_eq] at hsnd
      refine ⟨fun k hk => (hbd k hk).1, fun k hk => (hbd k hk).2, by omega, ?_⟩
      rw [sum_of_bounded_counts counts orphanKeys hbd]
      simp only [Bool.toNat_false] at htwo
      have : orphanKeys.length = 13 := by decide
      omega
  · rintro ⟨h1, h2, h3, h4⟩
    have hbd : ∀ k ∈ orphanKeys, 1 ≤ cnt counts k ∧ cnt counts k ≤ 2 :=
      fun k hk => ⟨h1 k hk, h2 k hk⟩
    have hsumk := sum_of_bounded_counts counts orphanKeys hbd
    have hlen13 : orphanKeys.length = 13 := by decide
    have htwo1 : (orphanKeys.filter (fun k => cnt counts k = 2)).length = 1 := by
      omega
    have hsz : ¬ countsSize counts > 13 := by
      have := countsSize_le_of_orphanSum counts hlen (by omega)
      omega
    simp only [hsz, if_false]
    have hfst : (orphanKeys.foldl (orphanStep counts) (true, false)).1 = true := by
      rw [orphanFold_fst]
      exact ⟨hbd, by simp [htwo1]⟩
    have hsnd := orphanFold_snd counts orphanKeys false hfst
    simp only [Bool.and_eq_true, beq_iff_eq]
    exact ⟨⟨hfst, hsum⟩, by rw [hsnd]; simp [htwo1]⟩

/-- C5: for a 14-tile non-bonus hand, `parseHand` reports
`thirteenOrphans = true` iff each of the 13 designated terminal/honor
kinds is present at least once, none exceeds count 2, at most one has
count exactly 2, and those 13 kinds account for all 14 tiles; in
particular the spec's example hand (one of each terminal/honor kind plus
a second bamboo-1) is valid with `thirteenOrphans = true`. -/
theorem parseHand_eq (tiles : List Tile) (h14 : tiles.length = 14)
    (hany : tiles.any (fun t => t.isBonus) = false) :
    parseHand tiles =
      ⟨(decide (findDecomps ((tilesToCounts tiles).sum + 1) (tilesToCounts tiles)
          [] false ≠ []) || checkSevenPairs (tilesToCounts tiles)
          || checkThirteenOrphans (tilesToCounts tiles)),
        findDecomps ((tilesToCounts tiles).sum + 1) (tilesToCounts tiles) [] false,
        checkSevenPairs (tilesToCounts tiles),
        checkThirteenOrphans (tilesToCounts tiles)⟩ := by
  unfold parseHand
  rw [if_neg (by omega), if_neg (by simp [hany])]

/-- C5: for every multiset of 14 non-bonus tiles, `parseHand` reports
`thirteenOrphans = true` iff each of the 13 designated terminal/honor
kinds is present at least once, none exceeds count 2, at most one has
count exactly 2, and those kinds account for all 14 tiles; in particular
the spec's example hand (one of each terminal/honor plus a second
bamboo-1) is valid with the flag set. -/
theorem C5_thirteen_orphans_iff :
    (∀ tiles : List Tile, tiles.length = 14 →
      (∀ t ∈ tiles, t.isBonus = false) → (∀ t ∈ tiles, tileKey t < 34) →
      ((parseHand tiles).thirteenOrphans = true ↔
        ThirteenOrphansSpec (tilesToCounts tiles)))
    ∧ (parseHand orphanExampleTiles).valid = true
    ∧ (parseHand orphanExampleTiles).thirteenOrphans = true := by
  refine ⟨?_, by rfl, by rfl⟩
  intro tiles h14 hnb hwf
  have hany : tiles.any (fun t => t.isBonus) = false := by
    simp only [List.any_eq_false]
    intro t ht
    simp [hnb t ht]
  rw [parseHand_eq tiles h14 hany]
  exact checkThirteenOrphans_iff _ (tilesToCounts_length tiles)
    (by rw [tilesToCounts_sum tiles hwf, h14])

theorem C5_thirteen_orphans_iff_witness :
    orphanExampleTiles.length = 14 ∧
      ThirteenOrphansSpec (tilesToCounts orphanExampleTiles) :=
  ⟨rfl, (C5_thirteen_orphans_iff.1 orphanExampleTiles rfl (by decide)
    (by decide)).mp (by rfl)⟩

/-! ## C10: `claimWin` does not exclude the discarder -/

/-- C10: `claimWin` performs no claimant-vs-discarder check (unlike
`claimPong` and `claimKong`, which always throw for the discarder), so a
`claimWin` by the discarder is rejected only when the reconstructed hand
plus the pending discard fails validation, and otherwise ends the round
with that player recorded as both winner and loser. -/
theorem C10_claimWin_no_self_check (s : GameState) (di : Nat) (d : Tile)
    (hph : s.phase = .claimWindow) (hld : s.lastDiscard = some d)
    (hldi : s.lastDiscardPlayerIndex = some di) :
    (claimPong s di = Except.error "Cannot pong your own discard")
    ∧ (claimKong s di = Except.error "Cannot kong your own discard")
    ∧ ((parseHand (reconstructFullHand (getPlayer s di) (some d))).valid = false →
        claimWin s di = Except.error "Not a winning hand")
    ∧ ((parseHand (reconstructFullHand (getPlayer s di) (some d))).valid = true →
        ∃ s2, claimWin s di = Except.ok s2 ∧ s2.phase = .roundOver ∧
          s2.result = some ⟨.win, some di, some di⟩) := by
  refine ⟨?_, ?_, ?_, ?_⟩
  · simp [claimPong, hph, hld, hldi]
  · simp [claimKong, hph, hld, hldi]
  · intro hv
    simp [claimWin, hph, hld, hldi, hv]
  · intro hv
    simp only [claimWin, hph, hld, hldi, hv]
    exact ⟨_, rfl, rfl, rfl⟩

theorem C10_claimWin_no_self_check_witness :
    stWin.phase = .claimWindow ∧
      (parseHand (reconstructFullHand (getPlayer stWin 0) (some dWin))).valid = true ∧
      ∃ s2, claimWin stWin 0 = Except.ok s2 ∧ s2.phase = .roundOver ∧
        s2.result = some ⟨.win, some 0, some 0⟩ :=
  ⟨rfl, by rfl,
    (C10_claimWin_no_self_check stWin 0 dWin rfl rfl rfl).2.2.2 (by rfl)⟩

/-! ## C2: claim-window priority resolution -/

theorem foldBest_some (d : Nat) (claims : List ClaimReq) (b : ClaimReq) :
    ∃ b2, claims.foldl (fun best c =>
      match best with
      | none => some c
      | some b => if claimPriority d b < claimPriority d c then some c
                  else best) (some b) = some b2 := by
  induction claims generalizing b with
  | nil => exact ⟨b, rfl⟩
  | cons c cs ih =>
    rw [List.foldl_cons]
    by_cases h : claimPriority d b < claimPriority d c
    · simpa [h] using ih c
    · simpa [h] using ih b

theorem foldBest_spec (d : Nat) (claims : List ClaimReq) (b b2 : ClaimReq)
    (h : claims.foldl (fun best c =>
      match best with
      | none => some c
      | some b => if claimPriority d b < claimPriority d c then some c
                  else best) (some b) = some b2) :
    (b2 = b ∨ b2 ∈ claims) ∧ claimPriority d b ≤ claimPriority d b2 ∧
      ∀ c ∈ claims, claimPriority d c ≤ claimPriority d b2 := by
  induction claims generalizing b with
  | nil =>
    simp only [List.foldl_nil, Option.some.injEq] at h
    subst h
    exact ⟨Or.inl rfl, le_refl _, by simp⟩
  | cons c cs ih =>
    rw [List.foldl_cons] at h
    by_cases hlt : claimPriority d b < claimPriority d c
    · simp only [hlt, if_true] at h
      obtain ⟨hmem, hle, hall⟩ := ih c h
      refine ⟨?_, by omega, ?_⟩
      · rcases hmem with rfl | hmem
        · exact Or.inr (List.mem_cons_self _ _)
        · exact Or.inr (List.mem_cons_of_mem _ hmem)
      · intro x hx
        rcases List.mem_cons.mp hx with rfl | hx
        · omega
        · exact hall x hx
    · simp only [hlt, if_false] at h
      obtain ⟨hmem, hle, hall⟩ := ih b h
      refine ⟨?_, hle, ?_⟩
      · rcases hmem with rfl | hmem
        · exact Or.inl rfl
        · exact Or.inr (List.mem_cons_of_mem _ hmem)
      · intro x hx
        rcases List.mem_cons.mp hx with rfl | hx
        · omega
        · exact hall x hx

theorem claimDistance_bounds (d i : Nat) (hd : d < 4) (hi : i < 4)
    (hne : i ≠ d) : 1 ≤ claimDistance d i ∧ claimDistance d i ≤ 3 := by
  unfold claimDistance
  omega

theorem claimBasePriority_cases (k : ClaimKind) :
    claimBasePriority k = 100 ∨ claimBasePriority k = 50 ∨
      claimBasePriority k = 10 := by
  cases k <;> simp [claimBasePriority]

theorem claimBasePriority_win (k : ClaimKind)
    (h : claimBasePriority k = 100) : k = .cwin := by
  cases k <;> simp_all [claimBasePriority]

/-- C2: when several seats claim one pending discard, the resolution
selects exactly one claim: one of maximal priority under
win > pong/kong (equal) > chow, with ties at equal base priority broken
in favor of the seat closest to the discarder clockwise; any claim set
containing a win claim resolves to a win claim. -/
theorem C2_claim_priority (discarderIdx : Nat) (claims : List ClaimReq)
    (hd : discarderIdx < 4)
    (hc : ∀ c ∈ claims, c.playerIndex < 4 ∧ c.playerIndex ≠ discarderIdx) :
    (claims ≠ [] → ∃ b, resolveClaimSelection discarderIdx claims = some b)
    ∧ ∀ b, resolveClaimSelection discarderIdx claims = some b →
        b ∈ claims ∧
        (∀ c ∈ claims,
          claimBasePriority c.ckind < claimBasePriority b.ckind ∨
          (claimBasePriority c.ckind = claimBasePriority b.ckind ∧
            claimDistance discarderIdx b.playerIndex
              ≤ claimDistance discarderIdx c.playerIndex)) ∧
        ((∃ c ∈ claims, c.ckind = .cwin) → b.ckind = .cwin) := by
  constructor
  · intro hne
    match claims, hne with
    | c :: cs, _ =>
      unfold resolveClaimSelection
      rw [List.foldl_cons]
      exact foldBest_some discarderIdx cs c
  · intro b hb
    have hmain : b ∈ claims ∧ ∀ c ∈ claims,
        claimPriority discarderIdx c ≤ claimPriority discarderIdx b := by
      match claims, hb with
      | c :: cs, hb =>
        unfold resolveClaimSelection at hb
        rw [List.foldl_cons] at hb
        obtain ⟨hmem, -, hall⟩ := foldBest_spec discarderIdx cs c b hb
        refine ⟨?_, ?_⟩
        · rcases hmem with rfl | hmem
          · exact List.mem_cons_self _ _
          · exact List.mem_cons_of_mem _ hmem
        · intro x hx
          rcases List.mem_cons.mp hx with rfl | hx
          · obtain ⟨-, hle, -⟩ := foldBest_spec discarderIdx cs x b hb
            exact hle
          · exact hall x hx
    obtain ⟨hmem, hall⟩ := hmain
    have hdb := claimDistance_bounds discarderIdx b.playerIndex hd
      (hc b hmem).1 (hc b hmem).2
    refine ⟨hmem, ?_, ?_⟩
    · intro c hcm
      have hdc := claimDistance_bounds discarderIdx c.playerIndex hd
        (hc c hcm).1 (hc c hcm).2
      have hle := hall c hcm
      unfold claimPriority at hle
      have h1 := claimBasePriority_cases b.ckind
      have h2 := claimBasePriority_cases c.ckind
      omega
    · rintro ⟨w, hw, hwk⟩
      have hdw := claimDistance_bounds discarderIdx w.playerIndex hd
        (hc w hw).1 (hc w hw).2
      have hle := hall w hw
      unfold claimPriority at hle
      rw [hwk] at hle
      have hwv : claimBasePriority ClaimKind.cwin = 100 := rfl
      rw [hwv] at hle
      have h1 := claimBasePriority_cases b.ckind
      apply claimBasePriority_win
      omega

theorem C2_claim_priority_witness :
    resolveClaimSelection 0
        [⟨1, ClaimKind.cpong⟩, ⟨3, ClaimKind.cwin⟩] = some ⟨3, ClaimKind.cwin⟩ ∧
      (⟨3, ClaimKind.cwin⟩ : ClaimReq).ckind = ClaimKind.cwin :=
  ⟨rfl, ((C2_claim_priority 0 [⟨1, ClaimKind.cpong⟩, ⟨3, ClaimKind.cwin⟩]
      (by decide) (by decide)).2 ⟨3, ClaimKind.cwin⟩ rfl).2.2
    ⟨⟨3, ClaimKind.cwin⟩, by decide, rfl⟩⟩

/-! ## C1 and C6: the inlined `claimKong` replacement draw -/

/-- C1 (failing input): on `stBugC1`, whose dead wall ends in two bonus
tiles with a non-bonus tile still below them, `claimKong`'s replacement
stops after the second bonus tile: the phase becomes postDraw with no
tile added to the hand (hand 4 → 1 after melding 3), both bonus tiles set
aside, one tile left in the dead wall, and no round result — instead of
drawing again until a non-bonus tile is obtained. -/
theorem C1_claimKong_replacement_stops_early :
    (claimKong stBugC1 0).map (fun s =>
        (s.phase, s.deadWall.length, (getPlayer s 0).handTiles.length,
          (getPlayer s 0).bonusTiles.length, s.result))
      = Except.ok (.postDraw, 1, 1, 2, none) := by rfl

/-- C6 (failing input): on `stBugC6`, whose dead wall holds exactly two
bonus tiles, the kong replacement inside `claimKong` exhausts the dead
wall without obtaining a replacement tile, yet the phase becomes postDraw
with no no-contest result (the transition still does not throw). -/
theorem C6_claimKong_exhaustion_not_roundOver :
    (claimKong stBugC6 0).map (fun s => (s.phase, s.deadWall, s.result))
      = Except.ok (.postDraw, [], none) := by rfl

/-! ## C3: tile conservation -/

/-- C3 (counterexample): `discardTile` moves a tile from the hand to the
discard pile, which is not among the zones listed by the claim (hands,
melds, bonus piles, live wall, dead wall), so the claimed sum drops from
1 to 0 on `stC3`. -/
theorem C3_spec_sum_not_conserved :
    specTileSum stC3 = 1 ∧ (discardTile stC3 (kt 1 5)).map specTileSum
      = Except.ok 0 := ⟨rfl, rfl⟩

theorem removeOneTile_length (hand : List Tile) (key : Nat) :
    (removeOneTile hand key).1.toList.length
      + (removeOneTile hand key).2.length = hand.length := by
  induction hand with
  | nil => rfl
  | cons t rest ih =>
    unfold removeOneTile
    by_cases h : tileKey t = key
    · simp only [h, if_pos rfl]
      simp
      omega
    · simp only [h, if_false]
      simp only [List.length_cons]
      omega

theorem removeTileById_length (hand : List Tile) (tid : Nat) :
    (removeTileById hand tid).1.toList.length
      + (removeTileById hand tid).2.length = hand.length := by
  induction hand with
  | nil => rfl
  | cons t rest ih =>
    unfold removeTileById
    by_cases h : t.id = tid
    · simp only [h, if_pos rfl]
      simp
      omega
    · simp only [h, if_false]
      simp only [List.length_cons]
      omega

theorem removeTileById_some_length (hand : List Tile) (tid : Nat) (t : Tile)
    (hand2 : List Tile) (h : removeTileById hand tid = (some t, hand2)) :
    hand2.length + 1 = hand.length := by
  have hlen := removeTileById_length hand tid
  rw [h] at hlen
  simp at hlen
  omega

theorem removeAllById_length (ts : List Tile) : ∀ (hand hand2 : List Tile),
    removeAllById hand ts = some hand2 → hand2.length + ts.length = hand.length := by
  induction ts with
  | nil =>
    intro hand hand2 h
    simp only [removeAllById, Option.some.injEq] at h
    subst h
    simp
  | cons kt rest ih =>
    intro hand hand2 h
    unfold removeAllById at h
    rcases hrem : removeTileById hand kt.id with ⟨r, h1⟩
    rw [hrem] at h
    cases r with
    | none => simp at h
    | some t =>
      simp only at h
      have ha := removeTileById_some_length hand kt.id t h1 hrem
      have hb := ih h1 hand2 h
      simp only [List.length_cons]
      omega

theorem drawLoop_length (wall : List Tile) : ∀ acc : List Tile,
    (drawLoop wall acc).1.length + (drawLoop wall acc).2.1.length
      + (drawLoop wall acc).2.2.toList.length = wall.length + acc.length := by
  induction wall with
  | nil => intro acc; simp [drawLoop]
  | cons t rest ih =>
    intro acc
    unfold drawLoop
    by_cases hb : t.isBonus
    · by_cases he : rest.isEmpty
      · have : rest = [] := List.isEmpty_iff.mp he
        subst this
        simp [hb]
        omega
      · have he2 : rest.isEmpty = false := by simpa using he
        simp only [hb, he2, Bool.false_eq_true, if_true, if_false]
        have := ih (acc ++ [t])
        simp only [List.length_append, List.length_cons, List.length_nil,
          List.length_singleton] at this ⊢
        omega
    · have hb2 : t.isBonus = false := by simpa using hb
      simp [hb2]
      omega

theorem deadLoopGo_length (dw : List Tile) : ∀ acc : List Tile,
    (deadLoopGo dw acc).1.length + (deadLoopGo dw acc).2.1.length
      + (deadLoopGo dw acc).2.2.toList.length = dw.length + acc.length := by
  induction dw with
  | nil => intro acc; simp [deadLoopGo]
  | cons t rest ih =>
    intro acc
    unfold deadLoopGo
    by_cases hb : t.isBonus
    · simp only [hb, if_true]
      have := ih (acc ++ [t])
      simp only [List.length_append, List.length_cons, List.length_nil,
        List.length_singleton] at this ⊢
      omega
    · have hb2 : t.isBonus = false := by simpa using hb
      simp [hb2]
      omega

theorem drawFromDeadWall_length (dw : List Tile) (t : Tile) (dw2 : List Tile)
    (h : drawFromDeadWall dw = some (t, dw2)) : dw2.length + 1 = dw.length := by
  unfold drawFromDeadWall at h
  rcases hg : dw.getLast? with - | t2
  · rw [hg] at h; simp at h
  · rw [hg] at h
    simp only [Option.some.injEq, Prod.mk.injEq] at h
    obtain ⟨-, rfl⟩ := h
    have hne : dw ≠ [] := by rintro rfl; simp at hg
    rw [List.length_dropLast]
    have := List.length_pos.mpr hne
    omega

theorem getD_set_of_ne {α : Type} (l : List α) (i : Nat) (p : α) (j : Nat)
    (d : α) (h : j ≠ i) : (l.set i p).getD j d = l.getD j d := by
  simp [List.getD_eq_getElem?_getD, List.getElem?_set_ne (Ne.symm h)]

theorem drawKongReplacement_conserves (s : GameState) (pi : Nat)
    (hpi : pi < s.players.length) :
    fullTileSum (drawKongReplacement s pi) = fullTileSum s := by
  unfold drawKongReplacement
  rcases hdl : deadLoopGo s.deadWall.reverse [] with ⟨revRest, bonus, tileOpt⟩
  have hlen := deadLoopGo_length s.deadWall.reverse []
  rw [hdl] at hlen
  simp at hlen
  cases tileOpt with
  | none =>
    simp only [fullTileSum, setPlayer, List.length_reverse]
    have hset := sum_map_set s.players pi
      { getPlayer s pi with
        bonusTiles := (getPlayer s pi).bonusTiles ++ bonus }
      emptyPlayer playerTileCountD hpi
    simp only [playerTileCountD, playerTileCount, List.length_append,
      getPlayer] at hset ⊢
    simp at hlen
    omega
  | some t =>
    simp only [fullTileSum, setPlayer, List.length_reverse]
    have hset := sum_map_set s.players pi
      { getPlayer s pi with
        handTiles := (getPlayer s pi).handTiles ++ [t],
        bonusTiles := (getPlayer s pi).bonusTiles ++ bonus }
      emptyPlayer playerTileCountD hpi
    simp only [playerTileCountD, playerTileCount, List.length_append,
      getPlayer] at hset ⊢
    simp at hlen
    simp only [List.length_cons, List.length_nil] at hset ⊢
    omega

theorem drawTile_conserves (s s2 : GameState)
    (hpi : s.currentPlayerIndex < s.players.length)
    (h : drawTile s = Except.ok s2) : fullTileSum s2 = fullTileSum s := by
  unfold drawTile at h
  split_ifs at h with h1 h2
  · simp only [Except.ok.injEq] at h
    subst h
    rfl
  · rcases hdl : drawLoop s.wall [] with ⟨wall2, bonus, tileOpt⟩
    rw [hdl] at h
    have hlen := drawLoop_length s.wall []
    rw [hdl] at hlen
    cases tileOpt with
    | none =>
      simp at hlen
      simp only [Except.ok.injEq] at h
      subst h
      simp only [fullTileSum, setPlayer, getPlayer]
      have hset := sum_map_set s.players s.currentPlayerIndex
        { s.players.getD s.currentPlayerIndex emptyPlayer with
          bonusTiles := (s.players.getD s.currentPlayerIndex emptyPlayer).bonusTiles
            ++ bonus }
        emptyPlayer playerTileCountD hpi
      simp only [playerTileCountD, playerTileCount, List.length_append] at hset ⊢
      omega
    | some t =>
      simp at hlen
      simp only [Except.ok.injEq] at h
      subst h
      simp only [fullTileSum, setPlayer, getPlayer]
      have hset := sum_map_set s.players s.currentPlayerIndex
        { s.players.getD s.currentPlayerIndex emptyPlayer with
          handTiles := (s.players.getD s.currentPlayerIndex emptyPlayer).handTiles
            ++ [t],
          bonusTiles := (s.players.getD s.currentPlayerIndex emptyPlayer).bonusTiles
            ++ bonus }
        emptyPlayer playerTileCountD hpi
      simp only [playerTileCountD, playerTileCount, List.length_append,
        List.length_cons, List.length_nil] at hset ⊢
      omega

theorem discardTile_conserves (s s2 : GameState) (tile : Tile)
    (hpi : s.currentPlayerIndex < s.players.length)
    (h : discardTile s tile = Except.ok s2) : fullTileSum s2 = fullTileSum s := by
  unfold discardTile at h
  split_ifs at h with h1
  simp only [] at h
  rcases hrem : removeTileById
      (getPlayer s s.currentPlayerIndex).handTiles tile.id with ⟨r, hand2⟩
  rw [hrem] at h
  cases r with
  | none => simp at h
  | some t =>
    simp only [Except.ok.injEq] at h
    subst h
    have hlen := removeTileById_length
      (getPlayer s s.currentPlayerIndex).handTiles tile.id
    rw [hrem] at hlen
    simp at hlen
    simp only [fullTileSum, setPlayer, getPlayer] at *
    have hset := sum_map_set s.players s.currentPlayerIndex
      { s.players.getD s.currentPlayerIndex emptyPlayer with
        handTiles := hand2,
        discards := (s.players.getD s.currentPlayerIndex emptyPlayer).discards
          ++ [tile] }
      emptyPlayer playerTileCountD hpi
    simp only [playerTileCountD, playerTileCount, List.length_append,
      List.length_cons, List.length_nil] at hset ⊢
    omega

theorem passClaim_conserves (s s2 : GameState)
    (h : passClaim s = Except.ok s2) : fullTileSum s2 = fullTileSum s := by
  unfold passClaim at h
  split_ifs at h
  simp only [Except.ok.injEq] at h
  subst h
  rfl

theorem declareSelfWin_conserves (s s2 : GameState)
    (h : declareSelfWin s = Except.ok s2) : fullTileSum s2 = fullTileSum s := by
  unfold declareSelfWin at h
  simp only [] at h
  split_ifs at h
  simp only [Except.ok.injEq] at h
  subst h
  rfl

theorem claimWin_drops_one (s s2 : GameState) (cpi di : Nat) (d : Tile)
    (hph : s.phase = .claimWindow) (hld : s.lastDiscard = some d)
    (hldi : s.lastDiscardPlayerIndex = some di)
    (hdi : di < s.players.length)
    (hdisc : (getPlayer s di).discards ≠ [])
    (h : claimWin s cpi = Except.ok s2) :
    fullTileSum s2 + 1 = fullTileSum s := by
  unfold claimWin at h
  rw [hph, hld, hldi] at h
  simp only [] at h
  split_ifs at h
  simp only [Except.ok.injEq] at h
  subst h
  simp only [fullTileSum, setPlayer, getPlayer] at *
  have hset := sum_map_set s.players di
    { s.players.getD di emptyPlayer with
      discards := (s.players.getD di emptyPlayer).discards.dropLast }
    emptyPlayer playerTileCountD hdi
  have hdl : (s.players.getD di emptyPlayer).discards.dropLast.length + 1
      = (s.players.getD di emptyPlayer).discards.length := by
    rw [List.length_dropLast]
    have := List.length_pos.mpr hdisc
    omega
  simp only [playerTileCountD, playerTileCount] at hset ⊢
  omega

theorem claimPong_conserves (s s2 : GameState) (cpi di : Nat) (d : Tile)
    (hph : s.phase = .claimWindow) (hld : s.lastDiscard = some d)
    (hldi : s.lastDiscardPlayerIndex = some di)
    (hcpi : cpi < s.players.length) (hdi : di < s.players.length)
    (hdisc : (getPlayer s di).discards ≠ [])
    (h : claimPong s cpi = Except.ok s2) : fullTileSum s2 = fullTileSum s := by
  unfold claimPong at h
  rw [hph, hld, hldi] at h
  simp only [] at h
  split_ifs at h with h1 h2
  rcases hr1 : removeOneTile (getPlayer s cpi).handTiles (tileKey d)
    with ⟨r1, hh1⟩
  rw [hr1] at h
  rcases hr2 : removeOneTile hh1 (tileKey d) with ⟨r2, hh2⟩
  rw [hr2] at h
  simp only [Except.ok.injEq] at h
  subst h
  have hl1 := removeOneTile_length (getPlayer s cpi).handTiles (tileKey d)
  rw [hr1] at hl1
  have hl2 := removeOneTile_length hh1 (tileKey d)
  rw [hr2] at hl2
  have hdd : (s.players.set cpi
      { getPlayer s cpi with
        handTiles := hh2,
        openMelds := (getPlayer s cpi).openMelds
          ++ [⟨.pung, [d] ++ r1.toList ++ r2.toList, false⟩] }).getD di emptyPlayer
      = s.players.getD di emptyPlayer :=
    getD_set_of_ne _ _ _ _ _ (fun hq => h1 (hq ▸ rfl))
  have hsetA := sum_map_set s.players cpi
    { getPlayer s cpi with
      handTiles := hh2,
      openMelds := (getPlayer s cpi).openMelds
        ++ [⟨.pung, [d] ++ r1.toList ++ r2.toList, false⟩] }
    emptyPlayer playerTileCountD hcpi
  have hsetB := sum_map_set
    (s.players.set cpi
      { getPlayer s cpi with
        handTiles := hh2,
        openMelds := (getPlayer s cpi).openMelds
          ++ [⟨.pung, [d] ++ r1.toList ++ r2.toList, false⟩] }) di
    { (s.players.getD di emptyPlayer) with
      discards := (s.players.getD di emptyPlayer).discards.dropLast }
    emptyPlayer playerTileCountD (by rw [List.length_set]; exact hdi)
  rw [hdd] at hsetB
  have hdl : (s.players.getD di emptyPlayer).discards.dropLast.length + 1
      = (s.players.getD di emptyPlayer).discards.length := by
    rw [List.length_dropLast]
    have hne2 : (s.players.getD di emptyPlayer).discards ≠ [] := hdisc
    have := List.length_pos.mpr hne2
    omega
  simp [fullTileSum, setPlayer, getPlayer, playerTileCountD,
    playerTileCount, Option.toList] at hsetA hsetB hdl hl1 hl2 ⊢
  simp only [List.getElem?_set_ne h1]
  omega

theorem claimChow_conserves (s s2 : GameState) (cpi di : Nat) (d c1 c2 : Tile)
    (hph : s.phase = .claimWindow) (hld : s.lastDiscard = some d)
    (hldi : s.lastDiscardPlayerIndex = some di)
    (hcpi : cpi < s.players.length) (hdi : di < s.players.length)
    (hne : cpi ≠ di)
    (hdisc : (getPlayer s di).discards ≠ [])
    (h : claimChow s cpi c1 c2 = Except.ok s2) :
    fullTileSum s2 = fullTileSum s := by
  unfold claimChow at h
  rw [hph, hld, hldi] at h
  simp only [] at h
  split_ifs at h with h1
  obtain ⟨k0, k1, k2, hL⟩ : ∃ a b c,
      (([d, c1, c2]).mergeSort (fun a b => tileKey a ≤ tileKey b)).map tileKey
        = [a, b, c] := by
    have hlen : ((([d, c1, c2]).mergeSort
        (fun a b => tileKey a ≤ tileKey b)).map tileKey).length = 3 := by
      rw [List.length_map, List.length_mergeSort]
      rfl
    rcases hv : (([d, c1, c2]).mergeSort
        (fun a b => tileKey a ≤ tileKey b)).map tileKey with - | ⟨a, - | ⟨b, - | ⟨c, - | ⟨e, l⟩⟩⟩⟩ <;>
      rw [hv] at hlen <;> simp at hlen
    exact ⟨a, b, c, rfl⟩
  rw [hL] at h
  simp only [] at h
  split_ifs at h with h2 h3 h4
  rcases hr1 : removeTileById (getPlayer s cpi).handTiles c1.id with ⟨r1, hh1⟩
  rw [hr1] at h
  cases r1 with
  | none => simp at h
  | some t1 =>
    simp only [] at h
    rcases hr2 : removeTileById hh1 c2.id with ⟨r2, hh2⟩
    rw [hr2] at h
    cases r2 with
    | none => simp at h
    | some t2 =>
      simp only [] at h
      simp only [Except.ok.injEq] at h
      subst h
      have hl1 := removeTileById_length (getPlayer s cpi).handTiles c1.id
      rw [hr1] at hl1
      have hl2 := removeTileById_length hh1 c2.id
      rw [hr2] at hl2
      have hms : (([d, c1, c2]).mergeSort
          (fun a b => tileKey a ≤ tileKey b)).length = 3 := by
        rw [List.length_mergeSort]
        rfl
      have hdd : (s.players.set cpi
          { getPlayer s cpi with
            handTiles := hh2,
            openMelds := (getPlayer s cpi).openMelds
              ++ [⟨.chow, ([d, c1, c2]).mergeSort
                    (fun a b => tileKey a ≤ tileKey b), false⟩] }).getD di emptyPlayer
          = s.players.getD di emptyPlayer :=
        getD_set_of_ne _ _ _ _ _ (Ne.symm (Ne.symm hne).symm)
      have hsetA := sum_map_set s.players cpi
        { getPlayer s cpi with
          handTiles := hh2,
          openMelds := (getPlayer s cpi).openMelds
            ++ [⟨.chow, ([d, c1, c2]).mergeSort
                  (fun a b => tileKey a ≤ tileKey b), false⟩] }
        emptyPlayer playerTileCountD hcpi
      have hsetB := sum_map_set
        (s.players.set cpi
          { getPlayer s cpi with
            handTiles := hh2,
            openMelds := (getPlayer s cpi).openMelds
              ++ [⟨.chow, ([d, c1, c2]).mergeSort
                    (fun a b => tileKey a ≤ tileKey b), false⟩] }) di
        { (s.players.getD di emptyPlayer) with
          discards := (s.players.getD di emptyPlayer).discards.dropLast }
        emptyPlayer playerTileCountD (by rw [List.length_set]; exact hdi)
      rw [hdd] at hsetB
      have hdl : (s.players.getD di emptyPlayer).discards.dropLast.length + 1
          = (s.players.getD di emptyPlayer).discards.length := by
        rw [List.length_dropLast]
        have hne2 : (s.players.getD di emptyPlayer).discards ≠ [] := hdisc
        have := List.length_pos.mpr hne2
        omega
      simp [fullTileSum, setPlayer, getPlayer, playerTileCountD,
        playerTileCount, Option.toList] at hsetA hsetB hdl hl1 hl2 hms ⊢
      simp only [List.getElem?_set_ne hne]
      omega

set_option maxHeartbeats 1000000 in
theorem claimKong_conserves (s s2 : GameState) (cpi di : Nat) (d : Tile)
    (hph : s.phase = .claimWindow) (hld : s.lastDiscard = some d)
    (hldi : s.lastDiscardPlayerIndex = some di)
    (hcpi : cpi < s.players.length) (hdi : di < s.players.length)
    (hdisc : (getPlayer s di).discards ≠ [])
    (h : claimKong s cpi = Except.ok s2) : fullTileSum s2 = fullTileSum s := by
  unfold claimKong at h
  rw [hph, hld, hldi] at h
  simp only [] at h
  split_ifs at h with h1 h2
  rcases hr1 : removeOneTile (getPlayer s cpi).handTiles (tileKey d)
    with ⟨r1, hh1⟩
  rw [hr1] at h
  rcases hr2 : removeOneTile hh1 (tileKey d) with ⟨r2, hh2⟩
  rw [hr2] at h
  rcases hr3 : removeOneTile hh2 (tileKey d) with ⟨r3, hh3⟩
  rw [hr3] at h
  simp only [setPlayer, getPlayer] at h
  have hl1 := removeOneTile_length (getPlayer s cpi).handTiles (tileKey d)
  rw [hr1] at hl1
  have hl2 := removeOneTile_length hh1 (tileKey d)
  rw [hr2] at hl2
  have hl3 := removeOneTile_length hh2 (tileKey d)
  rw [hr3] at hl3
  have hdl : (s.players.getD di emptyPlayer).discards.dropLast.length + 1
      = (s.players.getD di emptyPlayer).discards.length := by
    rw [List.length_dropLast]
    have hne2 : (s.players.getD di emptyPlayer).discards ≠ [] := hdisc
    have := List.length_pos.mpr hne2
    omega
  have hne : cpi ≠ di := h1
  have hsetA := sum_map_set s.players cpi
    ⟨hh3, (getPlayer s cpi).openMelds
        ++ [⟨.kong, [d] ++ r1.toList ++ r2.toList ++ r3.toList, false⟩],
      (getPlayer s cpi).bonusTiles, (getPlayer s cpi).discards⟩
    emptyPlayer playerTileCountD hcpi
  have hsetB := sum_map_set
    (s.players.set cpi
      ⟨hh3, (getPlayer s cpi).openMelds
          ++ [⟨.kong, [d] ++ r1.toList ++ r2.toList ++ r3.toList, false⟩],
        (getPlayer s cpi).bonusTiles, (getPlayer s cpi).discards⟩) di
    ⟨(s.players.getD di emptyPlayer).handTiles,
      (s.players.getD di emptyPlayer).openMelds,
      (s.players.getD di emptyPlayer).bonusTiles,
      (s.players.getD di emptyPlayer).discards.dropLast⟩
    emptyPlayer playerTileCountD (by rw [List.length_set]; exact hdi)
  rw [getD_set_of_ne _ _ _ _ _ (Ne.symm hne)] at hsetB
  rcases hdw : drawFromDeadWall s.deadWall with - | ⟨rep, dw1⟩
  · rw [hdw] at h
    simp only [] at h
    simp only [Except.ok.injEq] at h
    subst h
    simp [fullTileSum, setPlayer, getPlayer, playerTileCountD,
      playerTileCount, Option.toList] at hsetA hsetB hdl hl1 hl2 hl3 ⊢
    simp only [List.getElem?_set_ne hne]
    omega
  · rw [hdw] at h
    simp only [] at h
    have hdwl := drawFromDeadWall_length s.deadWall rep dw1 hdw
    split_ifs at h with hb
    · rcases hdw2 : drawFromDeadWall dw1 with - | ⟨next, dw2⟩
      · rw [hdw2] at h
        simp only [] at h
        simp only [Except.ok.injEq] at h
        subst h
        have hsetC := sum_map_set
          ((s.players.set cpi
            ⟨hh3, (getPlayer s cpi).openMelds
                ++ [⟨.kong, [d] ++ r1.toList ++ r2.toList ++ r3.toList, false⟩],
              (getPlayer s cpi).bonusTiles, (getPlayer s cpi).discards⟩).set di
            ⟨(s.players.getD di emptyPlayer).handTiles,
              (s.players.getD di emptyPlayer).openMelds,
              (s.players.getD di emptyPlayer).bonusTiles,
              (s.players.getD di emptyPlayer).discards.dropLast⟩) cpi
          ⟨hh3, (getPlayer s cpi).openMelds
              ++ [⟨.kong, [d] ++ r1.toList ++ r2.toList ++ r3.toList, false⟩],
            (getPlayer s cpi).bonusTiles ++ [rep], (getPlayer s cpi).discards⟩
          emptyPlayer playerTileCountD
            (by rw [List.length_set, List.length_set]; exact hcpi)
        simp [fullTileSum, setPlayer, getPlayer, playerTileCountD,
          playerTileCount, Option.toList] at hsetA hsetB hsetC hdl hdwl hl1 hl2 hl3 ⊢
        simp only [List.getElem?_set_ne hne, List.getElem?_set_ne (Ne.symm hne),
          List.getElem?_set_self, List.length_set, hcpi, hdi,
          Option.getD_some, List.map_append, List.sum_append, List.map_cons,
          List.map_nil, List.sum_cons, List.sum_nil, List.length_append,
          List.length_cons, List.length_nil, Nat.add_zero, Nat.zero_add] at hsetC ⊢
        omega
      · rw [hdw2] at h
        simp only [] at h
        have hdwl2 := drawFromDeadWall_length dw1 next dw2 hdw2
        have hsetC := sum_map_set
          ((s.players.set cpi
            ⟨hh3, (getPlayer s cpi).openMelds
                ++ [⟨.kong, [d] ++ r1.toList ++ r2.toList ++ r3.toList, false⟩],
              (getPlayer s cpi).bonusTiles, (getPlayer s cpi).discards⟩).set di
            ⟨(s.players.getD di emptyPlayer).handTiles,
              (s.players.getD di emptyPlayer).openMelds,
              (s.players.getD di emptyPlayer).bonusTiles,
              (s.players.getD di emptyPlayer).discards.dropLast⟩) cpi
          ⟨hh3, (getPlayer s cpi).openMelds
              ++ [⟨.kong, [d] ++ r1.toList ++ r2.toList ++ r3.toList, false⟩],
            (getPlayer s cpi).bonusTiles ++ [rep], (getPlayer s cpi).discards⟩
          emptyPlayer playerTileCountD
            (by rw [List.length_set, List.length_set]; exact hcpi)
        split_ifs at h with hb2
        · simp only [Except.ok.injEq] at h
          subst h
          have hsetD := sum_map_set
            (((s.players.set cpi
              ⟨hh3, (getPlayer s cpi).openMelds
                  ++ [⟨.kong, [d] ++ r1.toList ++ r2.toList ++ r3.toList, false⟩],
                (getPlayer s cpi).bonusTiles, (getPlayer s cpi).discards⟩).set di
              ⟨(s.players.getD di emptyPlayer).handTiles,
                (s.players.getD di emptyPlayer).openMelds,
                (s.players.getD di emptyPlayer).bonusTiles,
                (s.players.getD di emptyPlayer).discards.dropLast⟩).set cpi
              ⟨hh3, (getPlayer s cpi).openMelds
                  ++ [⟨.kong, [d] ++ r1.toList ++ r2.toList ++ r3.toList, false⟩],
                (getPlayer s cpi).bonusTiles ++ [rep],
                (getPlayer s cpi).discards⟩) cpi
            ⟨hh3, (getPlayer s cpi).openMelds
                ++ [⟨.kong, [d] ++ r1.toList ++ r2.toList ++ r3.toList, false⟩],
              (getPlayer s cpi).bonusTiles ++ [rep] ++ [next],
              (getPlayer s cpi).discards⟩
            emptyPlayer playerTileCountD
              (by rw [List.length_set, List.length_set, List.length_set]
                  exact hcpi)
          simp [fullTileSum, setPlayer, getPlayer, playerTileCountD,
            playerTileCount, Option.toList] at hsetA hsetB hsetC hsetD hdl hdwl hdwl2 hl1 hl2 hl3 ⊢
          simp only [List.getElem?_set_ne hne, List.getElem?_set_ne (Ne.symm hne),
            List.getElem?_set_self, List.length_set, hcpi, hdi,
            Option.getD_some, List.map_append, List.sum_append, List.map_cons,
            List.map_nil, List.sum_cons, List.sum_nil, List.length_append,
            List.length_cons, List.length_nil, Nat.add_zero, Nat.zero_add] at hsetC hsetD ⊢
          rw [show (s.players[cpi]?.getD emptyPlayer).bonusTiles.length + 1 + 1
              = (s.players[cpi]?.getD emptyPlayer).bonusTiles.length + 2 by omega]
          omega
        · simp only [Except.ok.injEq] at h
          subst h
          have hsetD := sum_map_set
            (((s.players.set cpi
              ⟨hh3, (getPlayer s cpi).openMelds
                  ++ [⟨.kong, [d] ++ r1.toList ++ r2.toList ++ r3.toList, false⟩],
                (getPlayer s cpi).bonusTiles, (getPlayer s cpi).discards⟩).set di
              ⟨(s.players.getD di emptyPlayer).handTiles,
                (s.players.getD di emptyPlayer).openMelds,
                (s.players.getD di emptyPlayer).bonusTiles,
                (s.players.getD di emptyPlayer).discards.dropLast⟩).set cpi
              ⟨hh3, (getPlayer s cpi).openMelds
                  ++ [⟨.kong, [d] ++ r1.toList ++ r2.toList ++ r3.toList, false⟩],
                (getPlayer s cpi).bonusTiles ++ [rep],
                (getPlayer s cpi).discards⟩) cpi
            ⟨hh3 ++ [next], (getPlayer s cpi).openMelds
                ++ [⟨.kong, [d] ++ r1.toList ++ r2.toList ++ r3.toList, false⟩],
              (getPlayer s cpi).bonusTiles ++ [rep], (getPlayer s cpi).discards⟩
            emptyPlayer playerTileCountD
              (by rw [List.length_set, List.length_set, List.length_set]
                  exact hcpi)
          simp [fullTileSum, setPlayer, getPlayer, playerTileCountD,
            playerTileCount, Option.toList] at hsetA hsetB hsetC hsetD hdl hdwl hdwl2 hl1 hl2 hl3 ⊢
          simp only [List.getElem?_set_ne hne, List.getElem?_set_ne (Ne.symm hne),
            List.getElem?_set_self, List.length_set, hcpi, hdi,
            Option.getD_some, List.map_append, List.sum_append, List.map_cons,
            List.map_nil, List.sum_cons, List.sum_nil, List.length_append,
            List.length_cons, List.length_nil, Nat.add_zero, Nat.zero_add] at hsetC hsetD ⊢
          omega
    · simp only [Except.ok.injEq] at h
      subst h
      have hsetC := sum_map_set
        ((s.players.set cpi
          ⟨hh3, (getPlayer s cpi).openMelds
              ++ [⟨.kong, [d] ++ r1.toList ++ r2.toList ++ r3.toList, false⟩],
            (getPlayer s cpi).bonusTiles, (getPlayer s cpi).discards⟩).set di
          ⟨(s.players.getD di emptyPlayer).handTiles,
            (s.players.getD di emptyPlayer).openMelds,
            (s.players.getD di emptyPlayer).bonusTiles,
            (s.players.getD di emptyPlayer).discards.dropLast⟩) cpi
        ⟨hh3 ++ [rep], (getPlayer s cpi).openMelds
            ++ [⟨.kong, [d] ++ r1.toList ++ r2.toList ++ r3.toList, false⟩],
          (getPlayer s cpi).bonusTiles, (getPlayer s cpi).discards⟩
        emptyPlayer playerTileCountD
          (by rw [List.length_set, List.length_set]; exact hcpi)
      simp [fullTileSum, setPlayer, getPlayer, playerTileCountD,
        playerTileCount, Option.toList] at hsetA hsetB hsetC hdl hdwl hl1 hl2 hl3 ⊢
      simp only [List.getElem?_set_ne hne, List.getElem?_set_ne (Ne.symm hne),
        List.getElem?_set_self, List.length_set, hcpi, hdi,
        Option.getD_some, List.map_append, List.sum_append, List.map_cons,
        List.map_nil, List.sum_cons, List.sum_nil, List.length_append,
        List.length_cons, List.length_nil, Nat.add_zero, Nat.zero_add] at hsetC ⊢
      omega

theorem declareKong_conserves (s s2 : GameState) (kongTiles : List Tile)
    (hpi : s.currentPlayerIndex < s.players.length)
    (h : declareKong s kongTiles = Except.ok s2) :
    fullTileSum s2 = fullTileSum s := by
  unfold declareKong at h
  simp only [] at h
  rcases hrem : removeAllById (getPlayer s s.currentPlayerIndex).handTiles
      kongTiles with - | hand2
  · rw [hrem] at h
    split_ifs at h
  · rw [hrem] at h
    split_ifs at h with h1 h2 h3
    simp only [Except.ok.injEq] at h
    subst h
    have hlen := removeAllById_length kongTiles _ hand2 hrem
    have h4 : kongTiles.length = 4 := by omega
    rw [drawKongReplacement_conserves _ _
      (by simp only [setPlayer, List.length_set]; exact hpi)]
    simp only [fullTileSum, setPlayer, getPlayer]
    have hset := sum_map_set s.players s.currentPlayerIndex
      { s.players.getD s.currentPlayerIndex emptyPlayer with
        handTiles := hand2,
        openMelds := (s.players.getD s.currentPlayerIndex emptyPlayer).openMelds
          ++ [⟨.kong, kongTiles, true⟩] }
      emptyPlayer playerTileCountD hpi
    simp only [playerTileCountD, playerTileCount, List.map_append,
      List.sum_append, List.map_cons, List.map_nil, List.sum_cons,
      List.sum_nil] at hset ⊢
    simp only [getPlayer, h4] at hlen
    omega

theorem promotePungToKong_conserves (s s2 : GameState) (tile : Tile)
    (hpi : s.currentPlayerIndex < s.players.length)
    (h : promotePungToKong s tile = Except.ok s2) :
    fullTileSum s2 = fullTileSum s := by
  unfold promotePungToKong at h
  split_ifs at h with h1
  simp only [] at h
  rcases hfi : (getPlayer s s.currentPlayerIndex).openMelds.findIdx?
      (fun m => m.type == MeldType.pung && !m.concealed &&
        tileKey (m.tiles.headD dummyTile) == tileKey tile) with - | pungIdx
  · rw [hfi] at h
    simp at h
  · rw [hfi] at h
    simp only [] at h
    rcases hrem : removeTileById (getPlayer s s.currentPlayerIndex).handTiles
        tile.id with ⟨r, hand2⟩
    rw [hrem] at h
    cases r with
    | none => simp at h
    | some t =>
      simp only [Except.ok.injEq] at h
      subst h
      have hlen := removeTileById_some_length _ _ _ _ hrem
      have hidx : pungIdx < (getPlayer s s.currentPlayerIndex).openMelds.length :=
        (List.findIdx?_eq_some_iff_findIdx_eq.mp hfi).1
      rw [drawKongReplacement_conserves _ _
        (by simp only [setPlayer, List.length_set]; exact hpi)]
      simp only [fullTileSum, setPlayer, getPlayer]
      have hset := sum_map_set s.players s.currentPlayerIndex
        { s.players.getD s.currentPlayerIndex emptyPlayer with
          handTiles := hand2,
          openMelds := (s.players.getD s.currentPlayerIndex
            emptyPlayer).openMelds.set pungIdx
            { (s.players.getD s.currentPlayerIndex
                emptyPlayer).openMelds.getD pungIdx ⟨.pung, [], false⟩ with
              type := .kong,
              tiles := ((s.players.getD s.currentPlayerIndex
                emptyPlayer).openMelds.getD pungIdx ⟨.pung, [], false⟩).tiles
                ++ [tile] } }
        emptyPlayer playerTileCountD hpi
      have hmset := sum_map_set
        (s.players.getD s.currentPlayerIndex emptyPlayer).openMelds pungIdx
        { (s.players.getD s.currentPlayerIndex
            emptyPlayer).openMelds.getD pungIdx ⟨.pung, [], false⟩ with
          type := .kong,
          tiles := ((s.players.getD s.currentPlayerIndex
            emptyPlayer).openMelds.getD pungIdx ⟨.pung, [], false⟩).tiles
            ++ [tile] }
        ⟨.pung, [], false⟩ (fun m => m.tiles.length) hidx
      simp only [playerTileCountD, playerTileCount, List.length_append,
        List.length_cons, List.length_nil] at hset hmset ⊢
      simp only [getPlayer] at hlen
      omega

/-- **C3** (amended): with the discard piles added to the specification's
zone list (hands, melds, bonus piles, live wall, dead wall), every
transition operation of the turn state machine conserves the total tile
count, except `claimWin`, which removes exactly one tile (the claimed
discard) from the discarder's pile, decreasing the total by exactly 1
whenever that pile is nonempty. -/
theorem C3_tile_conservation (s : GameState) :
    (∀ s2, s.currentPlayerIndex < s.players.length →
      drawTile s = Except.ok s2 → fullTileSum s2 = fullTileSum s) ∧
    (∀ s2 tile, s.currentPlayerIndex < s.players.length →
      discardTile s tile = Except.ok s2 → fullTileSum s2 = fullTileSum s) ∧
    (∀ s2 cpi di d, s.phase = .claimWindow → s.lastDiscard = some d →
      s.lastDiscardPlayerIndex = some di → cpi < s.players.length →
      di < s.players.length → (getPlayer s di).discards ≠ [] →
      claimPong s cpi = Except.ok s2 → fullTileSum s2 = fullTileSum s) ∧
    (∀ s2 cpi di d c1 c2, s.phase = .claimWindow → s.lastDiscard = some d →
      s.lastDiscardPlayerIndex = some di → cpi < s.players.length →
      di < s.players.length → cpi ≠ di → (getPlayer s di).discards ≠ [] →
      claimChow s cpi c1 c2 = Except.ok s2 → fullTileSum s2 = fullTileSum s) ∧
    (∀ s2 cpi di d, s.phase = .claimWindow → s.lastDiscard = some d →
      s.lastDiscardPlayerIndex = some di → cpi < s.players.length →
      di < s.players.length → (getPlayer s di).discards ≠ [] →
      claimKong s cpi = Except.ok s2 → fullTileSum s2 = fullTileSum s) ∧
    (∀ s2 cpi di d, s.phase = .claimWindow → s.lastDiscard = some d →
      s.lastDiscardPlayerIndex = some di → di < s.players.length →
      (getPlayer s di).discards ≠ [] →
      claimWin s cpi = Except.ok s2 → fullTileSum s2 + 1 = fullTileSum s) ∧
    (∀ s2, passClaim s = Except.ok s2 → fullTileSum s2 = fullTileSum s) ∧
    (∀ s2 kongTiles, s.currentPlayerIndex < s.players.length →
      declareKong s kongTiles = Except.ok s2 →
      fullTileSum s2 = fullTileSum s) ∧
    (∀ s2 tile, s.currentPlayerIndex < s.players.length →
      promotePungToKong s tile = Except.ok s2 →
      fullTileSum s2 = fullTileSum s) ∧
    (∀ s2, declareSelfWin s = Except.ok s2 →
      fullTileSum s2 = fullTileSum s) := by
  refine ⟨?_, ?_, ?_, ?_, ?_, ?_, ?_, ?_, ?_, ?_⟩
  · intro s2 hpi h
    exact drawTile_conserves s s2 hpi h
  · intro s2 tile hpi h
    exact discardTile_conserves s s2 tile hpi h
  · intro s2 cpi di d hph hld hldi hcpi hdi hdisc h
    exact claimPong_conserves s s2 cpi di d hph hld hldi hcpi hdi hdisc h
  · intro s2 cpi di d c1 c2 hph hld hldi hcpi hdi hne hdisc h
    exact claimChow_conserves s s2 cpi di d c1 c2 hph hld hldi hcpi hdi hne
      hdisc h
  · intro s2 cpi di d hph hld hldi hcpi hdi hdisc h
    exact claimKong_conserves s s2 cpi di d hph hld hldi hcpi hdi hdisc h
  · intro s2 cpi di d hph hld hldi hdi hdisc h
    exact claimWin_drops_one s s2 cpi di d hph hld hldi hdi hdisc h
  · intro s2 h
    exact passClaim_conserves s s2 h
  · intro s2 kongTiles hpi h
    exact declareKong_conserves s s2 kongTiles hpi h
  · intro s2 tile hpi h
    exact promotePungToKong_conserves s s2 tile hpi h
  · intro s2 h
    exact declareSelfWin_conserves s s2 h

/-- Witness for C3 at concrete states: discarding the only hand tile of
`stC3` conserves the amended sum, and the winning claim on `stWin`
decreases it by exactly 1. -/
theorem C3_tile_conservation_witness :
    (∃ s2, discardTile stC3 (kt 1 5) = Except.ok s2 ∧
      fullTileSum s2 = fullTileSum stC3) ∧
    (∃ s3, claimWin stWin 0 = Except.ok s3 ∧
      fullTileSum s3 + 1 = fullTileSum stWin) :=
  ⟨⟨_, rfl, (C3_tile_conservation stC3).2.1 _ (kt 1 5) (by decide) rfl⟩,
   ⟨_, rfl, (C3_tile_conservation stWin).2.2.2.2.2.1 _ 0 0 dWin rfl rfl rfl
      (by decide) (by decide) rfl⟩⟩

/-! ## C4/C9: soundness and completeness of the decomposition search -/

theorem find_range'_first (p : Nat → Bool) : ∀ (n a k : Nat),
    (List.range' a n).find? p = some k →
    p k = true ∧ a ≤ k ∧ k < a + n ∧ ∀ j, a ≤ j → j < k → p j = false := by
  intro n
  induction n with
  | zero => intro a k h; simp at h
  | succ n ih =>
    intro a k h
    rw [List.range'_succ] at h
    by_cases hp : p a = true
    · rw [List.find?_cons_of_pos _ hp] at h
      simp only [Option.some.injEq] at h
      subst h
      exact ⟨hp, Nat.le_refl _, by omega, fun j hj1 hj2 => by omega⟩
    · rw [List.find?_cons_of_neg _ hp] at h
      obtain ⟨h1, h2, h3, h4⟩ := ih (a + 1) k h
      refine ⟨h1, by omega, by omega, ?_⟩
      intro j hj1 hj2
      rcases Nat.eq_or_lt_of_le hj1 with rfl | hlt
      · exact Bool.eq_false_iff.mpr hp
      · exact h4 j hlt hj2

theorem find_range_first (p : Nat → Bool) (n k : Nat)
    (h : (List.range n).find? p = some k) :
    p k = true ∧ k < n ∧ ∀ j, j < k → p j = false := by
  rw [List.range_eq_range'] at h
  obtain ⟨h1, -, h3, h4⟩ := find_range'_first p n 0 k h
  exact ⟨h1, by omega, fun j hj => h4 j (Nat.zero_le j) hj⟩

theorem fpL_nil (i : Nat) : fpL [] i = 0 := rfl

theorem fpL_cons (m : MeldK) (L : List MeldK) (i : Nat) :
    fpL (m :: L) i = fpMeld m i + fpL L i := by
  simp [fpL]

theorem fpM_coe (L : List MeldK) (i : Nat) : fpM (↑L) i = fpL L i := by
  simp [fpM, fpL]

theorem fpM_cons (m : MeldK) (M : Multiset MeldK) (i : Nat) :
    fpM (m ::ₘ M) i = fpMeld m i + fpM M i := by
  simp [fpM]

theorem fpM_le_of_mem (m : MeldK) (M : Multiset MeldK) (i : Nat)
    (h : m ∈ M) : fpMeld m i ≤ fpM M i := by
  rw [← Multiset.cons_erase h, fpM_cons]
  exact Nat.le_add_right _ _

theorem fpM_pos_elim (M : Multiset MeldK) (i : Nat) (h : 0 < fpM M i) :
    ∃ m ∈ M, 0 < fpMeld m i := by
  induction M using Multiset.induction_on with
  | empty => simp [fpM] at h
  | cons a s ih =>
    rw [fpM_cons] at h
    by_cases ha : 0 < fpMeld a i
    · exact ⟨a, Multiset.mem_cons_self a s, ha⟩
    · obtain ⟨m, hm, hmp⟩ := ih (by omega)
      exact ⟨m, Multiset.mem_cons_of_mem hm, hmp⟩

theorem multiset_map_sum_zero {M : Multiset MeldK} {f : MeldK → Nat}
    (h : (M.map f).sum = 0) : ∀ m ∈ M, f m = 0 := by
  induction M using Multiset.induction_on with
  | empty => intro m hm; simp at hm
  | cons a s ih =>
    intro m hm
    rw [Multiset.map_cons, Multiset.sum_cons] at h
    rcases Multiset.mem_cons.mp hm with rfl | hm2
    · omega
    · exact ih (by omega) m hm2

theorem sum_range_fpMeld (m : MeldK) (hv : ValidMeld m) :
    ∑ i in Finset.range 34, fpMeld m i
      = 3 + (if IsKong m then 1 else 0) := by
  cases m with
  | pung r =>
    have hr : r < 34 := hv
    have : ∀ i, fpMeld (.pung r) i = if i = r then 3 else 0 := fun i => rfl
    simp only [this]
    rw [Finset.sum_ite_eq' (Finset.range 34) r (fun _ => 3),
      if_pos (Finset.mem_range.mpr hr)]
    simp [IsKong]
  | kong r =>
    have hr : r < 34 := hv
    have : ∀ i, fpMeld (.kong r) i = if i = r then 4 else 0 := fun i => rfl
    simp only [this]
    rw [Finset.sum_ite_eq' (Finset.range 34) r (fun _ => 4),
      if_pos (Finset.mem_range.mpr hr)]
    simp [IsKong]
  | chow r =>
    have hr : r < 27 := hv.1
    have hpt : ∀ i, fpMeld (.chow r) i
        = (if i = r then 1 else 0) + (if i = r + 1 then 1 else 0)
          + (if i = r + 2 then 1 else 0) := by
      intro i
      simp only [fpMeld]
      split_ifs <;> omega
    simp only [hpt]
    rw [Finset.sum_add_distrib, Finset.sum_add_distrib,
      Finset.sum_ite_eq' (Finset.range 34) r (fun _ => 1),
      Finset.sum_ite_eq' (Finset.range 34) (r + 1) (fun _ => 1),
      Finset.sum_ite_eq' (Finset.range 34) (r + 2) (fun _ => 1),
      if_pos (Finset.mem_range.mpr (by omega)),
      if_pos (Finset.mem_range.mpr (by omega)),
      if_pos (Finset.mem_range.mpr (by omega))]
    simp [IsKong]

theorem sum_range_fpPair (p : Nat) (hp : p < 34) :
    ∑ i in Finset.range 34, fpPair (some p) i = 2 := by
  have : ∀ i, fpPair (some p) i = if i = p then 2 else 0 := fun i => rfl
  simp only [this]
  rw [Finset.sum_ite_eq' (Finset.range 34) p (fun _ => 2),
    if_pos (Finset.mem_range.mpr hp)]

theorem sum_range_fpM (M : Multiset MeldK) (hv : ∀ m ∈ M, ValidMeld m) :
    ∑ i in Finset.range 34, fpM M i
      = 3 * Multiset.card M
        + (M.map (fun m => if IsKong m then 1 else 0)).sum := by
  induction M using Multiset.induction_on with
  | empty => simp [fpM]
  | cons a s ih =>
    simp only [fpM_cons]
    rw [Finset.sum_add_distrib,
      sum_range_fpMeld a (hv a (Multiset.mem_cons_self a s)),
      ih (fun m hm => hv m (Multiset.mem_cons_of_mem hm))]
    simp only [Multiset.card_cons, Multiset.map_cons, Multiset.sum_cons]
    ring

theorem findDecomps_sound (fuel : Nat) : ∀ (counts : List Nat)
    (melds : List MeldK) (pairChosen : Bool) (r : ParsedHandK),
    counts.length = 34 →
    r ∈ findDecomps fuel counts melds pairChosen →
    ∃ (extra : List MeldK) (po : Option Nat),
      r.melds = melds ++ extra ∧ r.pairK = po ∧
      (melds ++ extra).length = 4 ∧ (∀ m ∈ extra, ValidMeld m) ∧
      (pairChosen = true → po = none) ∧
      (pairChosen = false → ∃ p, po = some p ∧ p < 34) ∧
      (∀ i ∈ List.range 34, cnt counts i = fpL extra i + fpPair po i) := by
  induction fuel with
  | zero =>
    intro counts melds pairChosen r hlen hr
    simp [findDecomps] at hr
  | succ fuel ih =>
    intro counts melds pairChosen r hlen hr
    unfold findDecomps at hr
    by_cases hbase : counts.sum = 0 ∧ melds.length = 4 ∧ pairChosen = true
    · rw [if_pos hbase] at hr
      simp only [List.mem_singleton] at hr
      subst hr
      refine ⟨[], none, by simp, rfl, by simp [hbase.2.1], by simp,
        fun _ => rfl, ?_, ?_⟩
      · intro h
        rw [hbase.2.2] at h
        exact Bool.noConfusion h
      · intro i hi
        rw [fpL_nil]
        simp only [fpPair]
        exact cnt_eq_zero_of_sum_eq_zero counts hbase.1 i
    · rw [if_neg hbase] at hr
      rcases hfind : (List.range 34).find? (fun k => 0 < cnt counts k)
        with - | k
      · rw [hfind] at hr
        simp at hr
      · rw [hfind] at hr
        simp only [] at hr
        obtain ⟨hpk, hk34, hmin⟩ := find_range_first _ _ _ hfind
        have hkpos : 0 < cnt counts k := of_decide_eq_true hpk
        have hklen : k < counts.length := by rw [hlen]; exact hk34
        rcases List.mem_append.mp hr with hr123 | hr4
        · rcases List.mem_append.mp hr123 with hr12 | hr3
          · rcases List.mem_append.mp hr12 with hr1 | hr2
            · -- pair branch
              by_cases h1 : ¬pairChosen = true ∧ 2 ≤ cnt counts k
              · rw [if_pos h1] at hr1
                obtain ⟨r', hr', hmap⟩ := List.mem_map.mp hr1
                obtain ⟨extra, po', hm', hpk', hl', hv', hpo1, -, hcov⟩ :=
                  ih (counts.set k (cnt counts k - 2)) melds true r'
                    (by rw [List.length_set]; exact hlen) hr'
                have hpon : po' = none := hpo1 rfl
                refine ⟨extra, some k, ?_, ?_, hl', hv',
                  fun h => absurd h h1.1, fun _ => ⟨k, rfl, hk34⟩, ?_⟩
                · rw [← hmap]
                  exact hm'
                · rw [← hmap]
                · intro i hi
                  have hcv := hcov i hi
                  rw [hpon] at hcv
                  simp only [fpPair] at hcv ⊢
                  by_cases hik : i = k
                  · subst hik
                    rw [cnt_set_self counts i _ hklen] at hcv
                    rw [if_pos rfl]
                    omega
                  · rw [cnt_set_of_ne counts k _ i hik] at hcv
                    rw [if_neg hik]
                    omega
              · rw [if_neg h1] at hr1
                simp at hr1
            · -- pung branch
              by_cases h2 : 3 ≤ cnt counts k ∧ melds.length < 4
              · rw [if_pos h2] at hr2
                obtain ⟨extra', po, hm', hpk', hl', hv', hpo1, hpo2, hcov⟩ :=
                  ih (counts.set k (cnt counts k - 3)) (melds ++ [.pung k])
                    pairChosen r (by rw [List.length_set]; exact hlen) hr2
                refine ⟨.pung k :: extra', po, ?_, hpk', ?_, ?_, hpo1, hpo2, ?_⟩
                · rw [hm', List.append_assoc, List.singleton_append]
                · simp only [List.length_append, List.length_cons,
                    List.length_nil] at hl' ⊢
                  omega
                · intro m hm
                  rcases List.mem_cons.mp hm with rfl | hm2
                  · exact hk34
                  · exact hv' m hm2
                · intro i hi
                  have hcv := hcov i hi
                  rw [fpL_cons]
                  simp only [fpMeld]
                  by_cases hik : i = k
                  · subst hik
                    rw [cnt_set_self counts i _ hklen] at hcv
                    rw [if_pos rfl]
                    omega
                  · rw [cnt_set_of_ne counts k _ i hik] at hcv
                    rw [if_neg hik]
                    omega
              · rw [if_neg h2] at hr2
                simp at hr2
          · -- kong branch
            by_cases h3 : cnt counts k = 4 ∧ melds.length < 4
            · rw [if_pos h3] at hr3
              obtain ⟨extra', po, hm', hpk', hl', hv', hpo1, hpo2, hcov⟩ :=
                ih (counts.set k 0) (melds ++ [.kong k])
                  pairChosen r (by rw [List.length_set]; exact hlen) hr3
              refine ⟨.kong k :: extra', po, ?_, hpk', ?_, ?_, hpo1, hpo2, ?_⟩
              · rw [hm', List.append_assoc, List.singleton_append]
              · simp only [List.length_append, List.length_cons,
                  List.length_nil] at hl' ⊢
                omega
              · intro m hm
                rcases List.mem_cons.mp hm with rfl | hm2
                · exact hk34
                · exact hv' m hm2
              · intro i hi
                have hcv := hcov i hi
                rw [fpL_cons]
                simp only [fpMeld]
                by_cases hik : i = k
                · subst hik
                  rw [cnt_set_self counts i _ hklen] at hcv
                  rw [if_pos rfl]
                  omega
                · rw [cnt_set_of_ne counts k _ i hik] at hcv
                  rw [if_neg hik]
                  omega
            · rw [if_neg h3] at hr3
              simp at hr3
        · -- chow branch
          by_cases h4 : k < 27 ∧ k % 9 ≤ 6 ∧ 0 < cnt counts (k + 1)
              ∧ 0 < cnt counts (k + 2) ∧ melds.length < 4
          · rw [if_pos h4] at hr4
            obtain ⟨extra', po, hm', hpk', hl', hv', hpo1, hpo2, hcov⟩ :=
              ih (((counts.set k (cnt counts k - 1)).set (k + 1)
                  (cnt counts (k + 1) - 1)).set (k + 2)
                  (cnt counts (k + 2) - 1)) (melds ++ [.chow k])
                pairChosen r
                (by rw [List.length_set, List.length_set, List.length_set]
                    exact hlen) hr4
            refine ⟨.chow k :: extra', po, ?_, hpk', ?_, ?_, hpo1, hpo2, ?_⟩
            · rw [hm', List.append_assoc, List.singleton_append]
            · simp only [List.length_append, List.length_cons,
                List.length_nil] at hl' ⊢
              omega
            · intro m hm
              rcases List.mem_cons.mp hm with rfl | hm2
              · exact ⟨h4.1, h4.2.1⟩
              · exact hv' m hm2
            · intro i hi
              have hcv := hcov i hi
              rw [fpL_cons]
              simp only [fpMeld]
              by_cases hik2 : i = k + 2
              · subst hik2
                rw [cnt_set_self _ _ _
                  (by rw [List.length_set, List.length_set, hlen]; omega)] at hcv
                rw [if_pos (by omega)]
                omega
              · rw [cnt_set_of_ne _ _ _ _ hik2] at hcv
                by_cases hik1 : i = k + 1
                · subst hik1
                  rw [cnt_set_self _ _ _
                    (by rw [List.length_set, hlen]; omega)] at hcv
                  rw [if_pos (by omega)]
                  omega
                · rw [cnt_set_of_ne _ _ _ _ hik1] at hcv
                  by_cases hik : i = k
                  · subst hik
                    rw [cnt_set_self counts i _ hklen] at hcv
                    rw [if_pos (by omega)]
                    omega
                  · rw [cnt_set_of_ne counts k _ i hik] at hcv
                    rw [if_neg (by omega)]
                    omega
          · rw [if_neg h4] at hr4
            simp at hr4

theorem findDecomps_complete (fuel : Nat) : ∀ (counts : List Nat)
    (melds : List MeldK) (M : Multiset MeldK) (pr : Option Nat)
    (pairChosen : Bool),
    counts.length = 34 → counts.sum < fuel →
    (∀ m ∈ M, ValidMeld m ∧ ¬ IsKong m) →
    Multiset.card M + melds.length = 4 →
    (pairChosen = true → pr = none) →
    (pairChosen = false → ∃ q, pr = some q ∧ q < 34) →
    (∀ i ∈ List.range 34, cnt counts i = fpM M i + fpPair pr i) →
    ∃ (extra : List MeldK) (po : Option Nat),
      (↑extra : Multiset MeldK) = M ∧
      (pairChosen = true → po = none) ∧
      (pairChosen = false → po = pr) ∧
      (⟨melds ++ extra, po⟩ : ParsedHandK)
        ∈ findDecomps fuel counts melds pairChosen := by
  induction fuel with
  | zero =>
    intro counts melds M pr pairChosen hlen hfuel hM hcard hpc1 hpc2 hcov
    omega
  | succ fuel ih =>
    intro counts melds M pr pairChosen hlen hfuel hM hcard hpc1 hpc2 hcov
    by_cases hz : counts.sum = 0
    · have hpc : pairChosen = true := by
        by_contra h
        have hf : pairChosen = false := Bool.eq_false_iff.mpr h
        obtain ⟨q, hq, hq34⟩ := hpc2 hf
        have hcq := hcov q (List.mem_range.mpr hq34)
        rw [hq] at hcq
        simp [fpPair] at hcq
        have hz0 := cnt_eq_zero_of_sum_eq_zero counts hz q
        omega
      have hM0 : M = 0 := by
        by_contra hne
        obtain ⟨m, hm⟩ := Multiset.exists_mem_of_ne_zero hne
        obtain ⟨hvm, -⟩ := hM m hm
        obtain ⟨i0, hi0lt, hi0pos⟩ : ∃ i0, i0 < 34 ∧ 0 < fpMeld m i0 := by
          cases m with
          | pung r => exact ⟨r, hvm, by simp [fpMeld]⟩
          | kong r => exact ⟨r, hvm, by simp [fpMeld]⟩
          | chow r =>
            exact ⟨r, by have := hvm.1; omega, by simp [fpMeld]⟩
        have hle := fpM_le_of_mem m M i0 hm
        have hcv := hcov i0 (List.mem_range.mpr hi0lt)
        have hz0 := cnt_eq_zero_of_sum_eq_zero counts hz i0
        omega
      have hml : melds.length = 4 := by
        have : Multiset.card M = 0 := by rw [hM0]; rfl
        omega
      refine ⟨[], none, by rw [hM0]; rfl, fun _ => rfl,
        fun h => by rw [hpc] at h; exact Bool.noConfusion h, ?_⟩
      unfold findDecomps
      rw [if_pos ⟨hz, hml, hpc⟩]
      simp
    · have hfindex : ∃ k,
          (List.range 34).find? (fun k => 0 < cnt counts k) = some k := by
        rcases hf : (List.range 34).find? (fun k => 0 < cnt counts k)
          with - | k
        · exfalso
          have hall := List.find?_eq_none.mp hf
          have hzero : ∀ i ∈ List.range 34, cnt counts i = 0 := by
            intro i hi
            have hii := hall i hi
            simp only [decide_eq_true_eq] at hii
            omega
          have hsum := sum_eq_range_sum counts
          rw [hlen] at hsum
          apply hz
          rw [hsum]
          apply Finset.sum_eq_zero
          intro i hi
          exact hzero i (List.mem_range.mpr (Finset.mem_range.mp hi))
        · exact ⟨k, rfl⟩
      obtain ⟨k, hfind⟩ := hfindex
      obtain ⟨hpk, hk34, hmin⟩ := find_range_first _ _ _ hfind
      have hkpos : 0 < cnt counts k := of_decide_eq_true hpk
      have hklen : k < counts.length := by rw [hlen]; exact hk34
      have hcovk := hcov k (List.mem_range.mpr hk34)
      have hgd : counts.getD k 0 = cnt counts k := rfl
      have hbase : ¬(counts.sum = 0 ∧ melds.length = 4 ∧ pairChosen = true) :=
        fun h => hz h.1
      by_cases hpairk : pairChosen = false ∧ pr = some k
      · obtain ⟨hpc, hprk⟩ := hpairk
        have h2c : 2 ≤ cnt counts k := by
          rw [hprk] at hcovk
          simp [fpPair] at hcovk
          omega
        have hs := sum_set_add counts k (cnt counts k - 2) hklen
        rw [hgd] at hs
        have hcov' : ∀ i ∈ List.range 34,
            cnt (counts.set k (cnt counts k - 2)) i
              = fpM M i + fpPair none i := by
          intro i hi
          have hcv := hcov i hi
          rw [hprk] at hcv
          simp only [fpPair] at hcv ⊢
          by_cases hik : i = k
          · subst hik
            rw [cnt_set_self counts i _ hklen]
            rw [if_pos rfl] at hcv
            omega
          · rw [cnt_set_of_ne counts k _ i hik]
            rw [if_neg hik] at hcv
            omega
        obtain ⟨extra, po', hex, hpo1', -, hmem⟩ :=
          ih (counts.set k (cnt counts k - 2)) melds M none true
            (by rw [List.length_set]; exact hlen) (by omega) hM hcard
            (fun _ => rfl) (fun h => Bool.noConfusion h) hcov'
        have hpo' : po' = none := hpo1' rfl
        refine ⟨extra, some k, hex,
          fun h => by rw [hpc] at h; exact Bool.noConfusion h,
          fun _ => hprk.symm, ?_⟩
        unfold findDecomps
        rw [if_neg hbase, hfind]
        simp only []
        apply List.mem_append_left
        apply List.mem_append_left
        apply List.mem_append_left
        rw [if_pos ⟨by simp [hpc], h2c⟩]
        refine List.mem_map.mpr ⟨⟨melds ++ extra, po'⟩, hmem, rfl⟩
      · have hfpos : 0 < fpM M k := by
          by_contra hfc
          have hfz : fpM M k = 0 := by omega
          have hppos : 0 < fpPair pr k := by omega
          cases hpr : pr with
          | none => rw [hpr] at hppos; simp [fpPair] at hppos
          | some q =>
            have hq : q = k := by
              by_contra hqk
              rw [hpr] at hppos
              simp only [fpPair] at hppos
              rw [if_neg (fun hh => hqk hh.symm)] at hppos
              omega
            cases hpcb : pairChosen with
            | true =>
              have := hpc1 hpcb
              rw [hpr] at this
              exact Option.noConfusion this
            | false =>
              exact hpairk ⟨hpcb, by rw [hpr, hq]⟩
        obtain ⟨m, hm, hmpos⟩ := fpM_pos_elim M k hfpos
        obtain ⟨hvm, hnk⟩ := hM m hm
        have hmlt4 : melds.length < 4 := by
          have hcp : 0 < Multiset.card M :=
            Multiset.card_pos_iff_exists_mem.mpr ⟨m, hm⟩
          omega
        have hmcase : m = .pung k ∨ m = .chow k := by
          cases m with
          | pung r =>
            left
            simp only [fpMeld] at hmpos
            by_cases h : k = r
            · rw [h]
            · rw [if_neg h] at hmpos; omega
          | kong r => exact absurd trivial hnk
          | chow r =>
            right
            simp only [fpMeld] at hmpos
            have hkr : k = r ∨ k = r + 1 ∨ k = r + 2 := by
              by_contra h
              rw [if_neg h] at hmpos; omega
            have hrk : r = k := by
              by_contra hne
              have hrlt : r < k := by omega
              have hle := fpM_le_of_mem _ M r hm
              have hfpr : 0 < fpMeld (MeldK.chow r) r := by simp [fpMeld]
              have hr34 : r < 34 := by omega
              have hcvr := hcov r (List.mem_range.mpr hr34)
              have hmn : ¬ 0 < cnt counts r :=
                of_decide_eq_false (hmin r hrlt)
              omega
            rw [hrk]
        have hcrd := Multiset.card_erase_of_mem hm
        rw [Nat.pred_eq_sub_one] at hcrd
        have hcp : 0 < Multiset.card M :=
          Multiset.card_pos_iff_exists_mem.mpr ⟨m, hm⟩
        rcases hmcase with rfl | rfl
        · -- head meld is a pung of k
          have hins : (MeldK.pung k) ::ₘ M.erase (.pung k) = M :=
            Multiset.cons_erase hm
          have h3c : 3 ≤ cnt counts k := by
            have hle := fpM_le_of_mem _ M k hm
            simp [fpMeld] at hle
            omega
          have hcard' : Multiset.card (M.erase (.pung k))
              + (melds ++ [MeldK.pung k]).length = 4 := by
            simp only [List.length_append, List.length_cons, List.length_nil]
            omega
          have hM' : ∀ m' ∈ M.erase (.pung k), ValidMeld m' ∧ ¬ IsKong m' :=
            fun m' hm' => hM m' (Multiset.mem_of_mem_erase hm')
          have hs := sum_set_add counts k (cnt counts k - 3) hklen
          rw [hgd] at hs
          have hcov' : ∀ i ∈ List.range 34,
              cnt (counts.set k (cnt counts k - 3)) i
                = fpM (M.erase (.pung k)) i + fpPair pr i := by
            intro i hi
            have hcv := hcov i hi
            have hfp : fpM M i
                = fpMeld (.pung k) i + fpM (M.erase (.pung k)) i := by
              conv_lhs => rw [← hins]
              rw [fpM_cons]
            rw [hfp] at hcv
            by_cases hik : i = k
            · subst hik
              rw [cnt_set_self counts i _ hklen]
              simp [fpMeld] at hcv
              omega
            · rw [cnt_set_of_ne counts k _ i hik]
              simp only [fpMeld] at hcv
              rw [if_neg hik] at hcv
              omega
          obtain ⟨extra', po, hex, hpo1', hpo2', hmem⟩ :=
            ih (counts.set k (cnt counts k - 3)) (melds ++ [.pung k])
              (M.erase (.pung k)) pr pairChosen
              (by rw [List.length_set]; exact hlen) (by omega) hM' hcard'
              hpc1 hpc2 hcov'
          refine ⟨.pung k :: extra', po, ?_, hpo1', hpo2', ?_⟩
          · rw [← Multiset.cons_coe, hex, hins]
          · unfold findDecomps
            rw [if_neg hbase, hfind]
            simp only []
            apply List.mem_append_left
            apply List.mem_append_left
            apply List.mem_append_right
            rw [if_pos ⟨h3c, hmlt4⟩]
            rw [show melds ++ (MeldK.pung k :: extra')
                = (melds ++ [MeldK.pung k]) ++ extra' by
              rw [List.append_assoc, List.singleton_append]]
            exact hmem
        · -- head meld is a chow at k
          have hins : (MeldK.chow k) ::ₘ M.erase (.chow k) = M :=
            Multiset.cons_erase hm
          have hk27 : k < 27 := hvm.1
          have hk9 : k % 9 ≤ 6 := hvm.2
          have hle1 := fpM_le_of_mem _ M (k + 1) hm
          have hle2 := fpM_le_of_mem _ M (k + 2) hm
          have hfp1 : fpMeld (MeldK.chow k) (k + 1) = 1 := by
            simp [fpMeld]
          have hfp2 : fpMeld (MeldK.chow k) (k + 2) = 1 := by
            simp [fpMeld]
          have hcv1 := hcov (k + 1) (List.mem_range.mpr (by omega))
          have hcv2 := hcov (k + 2) (List.mem_range.mpr (by omega))
          have hpos1 : 0 < cnt counts (k + 1) := by omega
          have hpos2 : 0 < cnt counts (k + 2) := by omega
          have hcard' : Multiset.card (M.erase (.chow k))
              + (melds ++ [MeldK.chow k]).length = 4 := by
            simp only [List.length_append, List.length_cons, List.length_nil]
            omega
          have hM' : ∀ m' ∈ M.erase (.chow k), ValidMeld m' ∧ ¬ IsKong m' :=
            fun m' hm' => hM m' (Multiset.mem_of_mem_erase hm')
          have hs1 := sum_set_add counts k (cnt counts k - 1) hklen
          rw [hgd] at hs1
          have hlen1 : (counts.set k (cnt counts k - 1)).length = 34 := by
            rw [List.length_set]; exact hlen
          have hs2 := sum_set_add (counts.set k (cnt counts k - 1)) (k + 1)
            (cnt counts (k + 1) - 1) (by rw [hlen1]; omega)
          have he2 : (counts.set k (cnt counts k - 1)).getD (k + 1) 0
              = cnt counts (k + 1) :=
            cnt_set_of_ne counts k _ (k + 1) (by omega)
          rw [he2] at hs2
          have hlen2 : ((counts.set k (cnt counts k - 1)).set (k + 1)
              (cnt counts (k + 1) - 1)).length = 34 := by
            rw [List.length_set, hlen1]
          have hs3 := sum_set_add ((counts.set k (cnt counts k - 1)).set (k + 1)
            (cnt counts (k + 1) - 1)) (k + 2)
            (cnt counts (k + 2) - 1) (by rw [hlen2]; omega)
          have he3 : ((counts.set k (cnt counts k - 1)).set (k + 1)
              (cnt counts (k + 1) - 1)).getD (k + 2) 0
              = cnt counts (k + 2) := by
            have e1 : cnt ((counts.set k (cnt counts k - 1)).set (k + 1)
                (cnt counts (k + 1) - 1)) (k + 2)
                = cnt (counts.set k (cnt counts k - 1)) (k + 2) :=
              cnt_set_of_ne _ _ _ _ (by omega)
            have e2 : cnt (counts.set k (cnt counts k - 1)) (k + 2)
                = cnt counts (k + 2) :=
              cnt_set_of_ne _ _ _ _ (by omega)
            rw [← e2, ← e1]; rfl
          rw [he3] at hs3
          have hcov' : ∀ i ∈ List.range 34,
              cnt (((counts.set k (cnt counts k - 1)).set (k + 1)
                  (cnt counts (k + 1) - 1)).set (k + 2)
                  (cnt counts (k + 2) - 1)) i
                = fpM (M.erase (.chow k)) i + fpPair pr i := by
            intro i hi
            have hcv := hcov i hi
            have hfp : fpM M i
                = fpMeld (.chow k) i + fpM (M.erase (.chow k)) i := by
              conv_lhs => rw [← hins]
              rw [fpM_cons]
            rw [hfp] at hcv
            simp only [fpMeld] at hcv
            by_cases hik2 : i = k + 2
            · subst hik2
              rw [cnt_set_self _ _ _ (by rw [hlen2]; omega)]
              rw [if_pos (by omega)] at hcv
              omega
            · rw [cnt_set_of_ne _ _ _ _ hik2]
              by_cases hik1 : i = k + 1
              · subst hik1
                rw [cnt_set_self _ _ _ (by rw [hlen1]; omega)]
                rw [if_pos (by omega)] at hcv
                omega
              · rw [cnt_set_of_ne _ _ _ _ hik1]
                by_cases hik : i = k
                · subst hik
                  rw [cnt_set_self counts i _ hklen]
                  rw [if_pos (by omega)] at hcv
                  omega
                · rw [cnt_set_of_ne counts k _ i hik]
                  rw [if_neg (by omega)] at hcv
                  omega
          obtain ⟨extra', po, hex, hpo1', hpo2', hmem⟩ :=
            ih (((counts.set k (cnt counts k - 1)).set (k + 1)
                (cnt counts (k + 1) - 1)).set (k + 2)
                (cnt counts (k + 2) - 1)) (melds ++ [.chow k])
              (M.erase (.chow k)) pr pairChosen
              (by rw [List.length_set, List.length_set, List.length_set]
                  exact hlen)
              (by omega) hM' hcard' hpc1 hpc2 hcov'
          refine ⟨.chow k :: extra', po, ?_, hpo1', hpo2', ?_⟩
          · rw [← Multiset.cons_coe, hex, hins]
          · unfold findDecomps
            rw [if_neg hbase, hfind]
            simp only []
            apply List.mem_append_right
            rw [if_pos ⟨hk27, hk9, hpos1, hpos2, hmlt4⟩]
            rw [show melds ++ (MeldK.chow k :: extra')
                = (melds ++ [MeldK.chow k]) ++ extra' by
              rw [List.append_assoc, List.singleton_append]]
            exact hmem

theorem no_kong_of_cover14 (counts : List Nat) (hlen : counts.length = 34)
    (hsum : counts.sum = 14) (M : Multiset MeldK) (p : Nat)
    (hd : IsStdDecomp counts M p) : ∀ m ∈ M, ¬ IsKong m := by
  obtain ⟨hcard, hval, hp34, hcov⟩ := hd
  have hsumcov : ∑ i in Finset.range 34, cnt counts i
      = ∑ i in Finset.range 34, (fpM M i + fpPair (some p) i) :=
    Finset.sum_congr rfl (fun i hi =>
      hcov i (List.mem_range.mpr (Finset.mem_range.mp hi)))
  rw [Finset.sum_add_distrib, sum_range_fpM M hval, sum_range_fpPair p hp34,
    hcard] at hsumcov
  have hsr := sum_eq_range_sum counts
  rw [hlen] at hsr
  have hind : (M.map (fun m => if IsKong m then 1 else 0)).sum = 0 := by
    omega
  intro m hm hk
  have hz := multiset_map_sum_zero hind m hm
  rw [if_pos hk] at hz
  omega

theorem checkSevenPairs_iff (counts : List Nat) (hlen : counts.length = 34) :
    checkSevenPairs counts = true ↔ SevenPairsSpec counts := by
  unfold checkSevenPairs SevenPairsSpec
  rw [Bool.and_eq_true, List.all_eq_true]
  constructor
  · rintro ⟨h7, hall⟩
    refine ⟨by simpa using h7, ?_⟩
    intro i hi
    have hilt : i < counts.length := by
      rw [hlen]; exact List.mem_range.mp hi
    have hx := hall _ (List.get_mem counts i hilt)
    have hcnt : cnt counts i = counts.get ⟨i, hilt⟩ := by
      simp [cnt, List.getD_eq_getElem?_getD, List.getElem?_eq_getElem hilt,
        List.get_eq_getElem]
    rw [hcnt]
    simpa using hx
  · rintro ⟨h7, hall⟩
    refine ⟨by simpa using h7, ?_⟩
    intro x hx
    obtain ⟨i, hilt, heq⟩ := List.mem_iff_getElem.mp hx
    have hi34 : i < 34 := by rw [← hlen]; exact hilt
    have hq := hall i (List.mem_range.mpr hi34)
    have hcnt : cnt counts i = x := by
      rw [← heq]
      simp [cnt, List.getD_eq_getElem?_getD, List.getElem?_eq_getElem hilt]
    rw [hcnt] at hq
    simpa using hq

/-- C4: for every multiset of 14 non-bonus tiles, the recursive search
returns *every* standard decomposition (4 melds + 1 pair) of the tile
multiset, only such decompositions, reports `valid` whenever one exists,
and yields the all-false record when no decomposition exists and the
seven-pairs and thirteen-distinct patterns fail as well. -/
theorem C4_parseHand_decompositions (tiles : List Tile)
    (h14 : tiles.length = 14) (hnb : ∀ t ∈ tiles, t.isBonus = false)
    (hwf : ∀ t ∈ tiles, tileKey t < 34) :
    (∀ (M : Multiset MeldK) (p : Nat),
      IsStdDecomp (tilesToCounts tiles) M p →
      ∃ r ∈ (parseHand tiles).decompositions,
        (↑r.melds : Multiset MeldK) = M ∧ r.pairK = some p) ∧
    (∀ r ∈ (parseHand tiles).decompositions, ∃ p,
      r.pairK = some p ∧ IsStdDecomp (tilesToCounts tiles) (↑r.melds) p) ∧
    ((∃ M p, IsStdDecomp (tilesToCounts tiles) M p) →
      (parseHand tiles).valid = true ∧
      (parseHand tiles).decompositions ≠ []) ∧
    (¬ (∃ M p, IsStdDecomp (tilesToCounts tiles) M p) →
      ¬ SevenPairsSpec (tilesToCounts tiles) →
      ¬ ThirteenOrphansSpec (tilesToCounts tiles) →
      parseHand tiles = ⟨false, [], false, false⟩) := by
  have hany : tiles.any (fun t => t.isBonus) = false := by
    simp only [List.any_eq_false]
    intro t ht
    simp [hnb t ht]
  have hlen := tilesToCounts_length tiles
  have hsum : (tilesToCounts tiles).sum = 14 := by
    rw [tilesToCounts_sum tiles hwf, h14]
  have hpe := parseHand_eq tiles h14 hany
  have hdec : (parseHand tiles).decompositions
      = findDecomps ((tilesToCounts tiles).sum + 1)
          (tilesToCounts tiles) [] false := by
    rw [hpe]
  have hcomp : ∀ (M : Multiset MeldK) (p : Nat),
      IsStdDecomp (tilesToCounts tiles) M p →
      ∃ r ∈ (parseHand tiles).decompositions,
        (↑r.melds : Multiset MeldK) = M ∧ r.pairK = some p := by
    intro M p hd
    obtain ⟨hcard, hval, hp34, hcov⟩ := hd
    have hnk := no_kong_of_cover14 _ hlen hsum M p ⟨hcard, hval, hp34, hcov⟩
    obtain ⟨extra, po, hex, -, hpo2, hmem⟩ :=
      findDecomps_complete ((tilesToCounts tiles).sum + 1)
        (tilesToCounts tiles) [] M (some p) false hlen (by omega)
        (fun m hm => ⟨hval m hm, hnk m hm⟩) (by simpa using hcard)
        (fun h => Bool.noConfusion h) (fun _ => ⟨p, rfl, hp34⟩) hcov
    have hpo : po = some p := hpo2 rfl
    rw [List.nil_append, hpo] at hmem
    refine ⟨⟨extra, some p⟩, ?_, hex, rfl⟩
    rw [hdec]
    exact hmem
  have hsound : ∀ r ∈ (parseHand tiles).decompositions, ∃ p,
      r.pairK = some p ∧ IsStdDecomp (tilesToCounts tiles) (↑r.melds) p := by
    intro r hr
    rw [hdec] at hr
    obtain ⟨extra, po, hm, hpk, hl4, hval, -, hpo2, hcov⟩ :=
      findDecomps_sound ((tilesToCounts tiles).sum + 1)
        (tilesToCounts tiles) [] false r hlen hr
    obtain ⟨p, hpop, hp34⟩ := hpo2 rfl
    refine ⟨p, by rw [hpk, hpop], ?_⟩
    rw [hm, List.nil_append]
    refine ⟨?_, ?_, hp34, ?_⟩
    · rw [Multiset.coe_card]
      simpa using hl4
    · intro m hmm
      exact hval m (by simpa using hmm)
    · intro i hi
      rw [fpM_coe]
      have hc := hcov i hi
      rw [hpop] at hc
      exact hc
  refine ⟨hcomp, hsound, ?_, ?_⟩
  · rintro ⟨M, p, hd⟩
    obtain ⟨r, hr, -, -⟩ := hcomp M p hd
    have hne : (parseHand tiles).decompositions ≠ [] :=
      List.ne_nil_of_mem hr
    refine ⟨?_, hne⟩
    have hvalid : (parseHand tiles).valid
        = (decide (findDecomps ((tilesToCounts tiles).sum + 1)
              (tilesToCounts tiles) [] false ≠ [])
            || checkSevenPairs (tilesToCounts tiles)
            || checkThirteenOrphans (tilesToCounts tiles)) := by
      rw [hpe]
    rw [hdec] at hne
    rw [hvalid]
    simp only [Bool.or_eq_true, decide_eq_true_eq]
    left; left
    exact hne
  · intro hno hnsp hnto
    have hD : findDecomps ((tilesToCounts tiles).sum + 1)
        (tilesToCounts tiles) [] false = [] := by
      by_contra hne
      obtain ⟨r, hr⟩ := List.exists_mem_of_ne_nil _ hne
      have hr' : r ∈ (parseHand tiles).decompositions := by
        rw [hdec]; exact hr
      obtain ⟨p, -, hd⟩ := hsound r hr'
      exact hno ⟨_, p, hd⟩
    have hsp : checkSevenPairs (tilesToCounts tiles) = false := by
      cases hb : checkSevenPairs (tilesToCounts tiles) with
      | false => rfl
      | true => exact absurd ((checkSevenPairs_iff _ hlen).mp hb) hnsp
    have hto : checkThirteenOrphans (tilesToCounts tiles) = false := by
      cases hb : checkThirteenOrphans (tilesToCounts tiles) with
      | false => rfl
      | true =>
        exact absurd ((checkThirteenOrphans_iff _ hlen hsum).mp hb) hnto
    rw [hpe, hD, hsp, hto]
    simp

/-- Witness for C4 on the ambiguous hand 111 222 333 456 bamboo + a pair
of dots-9: the pung-based decomposition is reported (completeness applied
to it), and the hand is valid with a nonempty decomposition list. -/
theorem C4_parseHand_decompositions_witness :
    ambiguousTiles.length = 14 ∧
    (∃ r ∈ (parseHand ambiguousTiles).decompositions,
      (↑r.melds : Multiset MeldK)
        = (↑[MeldK.pung 0, MeldK.pung 1, MeldK.pung 2, MeldK.chow 3] :
            Multiset MeldK) ∧ r.pairK = some 26) ∧
    (parseHand ambiguousTiles).valid = true ∧
    (parseHand ambiguousTiles).decompositions ≠ [] :=
  ⟨rfl,
   (C4_parseHand_decompositions ambiguousTiles rfl (by decide) (by decide)).1
     _ 26 (by decide),
   (C4_parseHand_decompositions ambiguousTiles rfl (by decide)
     (by decide)).2.2.1
     ⟨↑[MeldK.pung 0, MeldK.pung 1, MeldK.pung 2, MeldK.chow 3], 26,
      by decide⟩⟩

/-- C9: every decomposition returned by `parseHand` has exactly 4 melds,
each covering exactly 3 tiles (so the quadruplet branch of the search
never contributes to a returned decomposition), plus a filled-in pair. -/
theorem C9_no_kong_in_decompositions (tiles : List Tile) (r : ParsedHandK)
    (h14 : tiles.length = 14) (hnb : ∀ t ∈ tiles, t.isBonus = false)
    (hwf : ∀ t ∈ tiles, tileKey t < 34)
    (hr : r ∈ (parseHand tiles).decompositions) :
    r.melds.length = 4 ∧ (∀ m ∈ r.melds, ¬ IsKong m) ∧
    (∀ m ∈ r.melds, ∑ i in Finset.range 34, fpMeld m i = 3) ∧
    ∃ p, r.pairK = some p := by
  have hany : tiles.any (fun t => t.isBonus) = false := by
    simp only [List.any_eq_false]
    intro t ht
    simp [hnb t ht]
  have hlen := tilesToCounts_length tiles
  have hsum : (tilesToCounts tiles).sum = 14 := by
    rw [tilesToCounts_sum tiles hwf, h14]
  have hpe := parseHand_eq tiles h14 hany
  have hdec : (parseHand tiles).decompositions
      = findDecomps ((tilesToCounts tiles).sum + 1)
          (tilesToCounts tiles) [] false := by
    rw [hpe]
  rw [hdec] at hr
  obtain ⟨extra, po, hm, hpk, hl4, hval, -, hpo2, hcov⟩ :=
    findDecomps_sound ((tilesToCounts tiles).sum + 1)
      (tilesToCounts tiles) [] false r hlen hr
  obtain ⟨p, hpop, hp34⟩ := hpo2 rfl
  have hd : IsStdDecomp (tilesToCounts tiles) (↑extra) p := by
    refine ⟨?_, ?_, hp34, ?_⟩
    · rw [Multiset.coe_card]
      simpa using hl4
    · intro m hmm
      exact hval m (by simpa using hmm)
    · intro i hi
      rw [fpM_coe]
      have hc := hcov i hi
      rw [hpop] at hc
      exact hc
  have hnk := no_kong_of_cover14 _ hlen hsum (↑extra) p hd
  have hmelds : r.melds = extra := by rw [hm, List.nil_append]
  refine ⟨?_, ?_, ?_, p, by rw [hpk, hpop]⟩
  · rw [hmelds]
    simpa using hl4
  · intro m hmm
    rw [hmelds] at hmm
    exact hnk m (by simpa using hmm)
  · intro m hmm
    rw [hmelds] at hmm
    have hv := hval m hmm
    have hnkm := hnk m (by simpa using hmm)
    rw [sum_range_fpMeld m hv, if_neg hnkm]

/-- Witness for C9: the pung-based decomposition of the ambiguous hand has
4 melds, no quadruplet, 3 tiles per meld, and pair dots-9. -/
theorem C9_no_kong_in_decompositions_witness :
    (⟨[MeldK.pung 0, MeldK.pung 1, MeldK.pung 2, MeldK.chow 3],
        some 26⟩ : ParsedHandK) ∈ (parseHand ambiguousTiles).decompositions ∧
    ([MeldK.pung 0, MeldK.pung 1, MeldK.pung 2, MeldK.chow 3] :
        List MeldK).length = 4 ∧
    (∀ m ∈ ([MeldK.pung 0, MeldK.pung 1, MeldK.pung 2, MeldK.chow 3] :
        List MeldK), ¬ IsKong m) :=
  ⟨by decide, by decide,
   fun m hm => ((C9_no_kong_in_decompositions ambiguousTiles
     ⟨[MeldK.pung 0, MeldK.pung 1, MeldK.pung 2, MeldK.chow 3], some 26⟩
     rfl (by decide) (by decide) (by decide)).2.1 m hm)⟩

end SgMahjong
